import Mathlib

/-!
# SRAM diagnostics (Checkerboard and March-B): a shallow embedding

Sources embedded here:
* `mcc_generated_files/diag_library/memory/volatile/diag_sram_types.h`
* `mcc_generated_files/diag_library/memory/volatile/diag_sram_checkerboard.{h,c}`
* `mcc_generated_files/diag_library/memory/volatile/diag_sram_marchb.{h,c}`

The target is an 8-bit AVR: data pointers and `unsigned int` are 16 bits wide, so
pointer and `uint16_t` arithmetic is taken modulo `65536`.  The byte memory is a
total function from addresses to cell contents; stuck-at bits can be injected,
and they take effect whenever a faulty cell is read, the byte of the March-B status
variable included.

Every `for` loop of the C code is a structurally recursive function whose first
numeric argument counts the iterations still to run and whose second one is the
loop variable.  Loops that can `return` from inside give `Except.error` with the
machine state at the moment of the `return`.
-/

namespace DiagSram

/-! ## Data model -/

/-- `diag_sram_status_t` of `diag_sram_types.h`. -/
inductive diag_sram_status_t where
  | SRAM_OK
  | SRAM_ERROR
  deriving DecidableEq, Repr

open diag_sram_status_t

/-- The value of an enumerator: `SRAM_OK = 0`, `SRAM_ERROR = 1`. -/
def diag_sram_status_t.toNat : diag_sram_status_t → Nat
  | SRAM_OK => 0
  | SRAM_ERROR => 1

/-- `#define SRAM_SEC_SIZE (16)`, in both `diag_sram_checkerboard.h` and
`diag_sram_marchb.h`. -/
def SRAM_SEC_SIZE : Nat := 16

/-- Platform constants that come from `diag_config.h` and the device header `xc.h`,
neither of which belongs to the sources at hand: they are parameters. -/
structure Config where
  /-- First address of the internal SRAM. -/
  INTERNAL_SRAM_START : Nat
  /-- Size of the internal SRAM in bytes. -/
  INTERNAL_SRAM_SIZE : Nat
  /-- Data address of `checkerbrd_buffer` (`__at(0x800000 + CHECKERBOARD_BUFFER_OFFSET)`,
  where `0x800000` is the linker's tag of the data space). -/
  CHECKERBOARD_BUFFER_OFFSET : Nat
  /-- Data address of `march_buffer` (`__at(0x800000 + MARCH_BUFFER_OFFSET)`). -/
  MARCH_BUFFER_OFFSET : Nat
  /-- Bit mask of the global interrupt enable flag in `SREG`. -/
  CPU_I_bm : Nat
  /-- Bit position of the global interrupt enable flag in `SREG`. -/
  CPU_I_bp : Nat
  /-- Data address that the linker gives to the object
  `static volatile __persistent diag_sram_status_t diag_sram_marchb_state`: a byte of the
  internal SRAM like any other.  The object is taken to be one byte wide, which is what its
  two enumerators need. -/
  MARCHB_STATE_ADDRESS : Nat

/-- `#define SRAM_NSECS (INTERNAL_SRAM_SIZE / SRAM_SEC_SIZE)` of `diag_sram_marchb.h`. -/
def SRAM_NSECS (cfg : Config) : Nat := cfg.INTERNAL_SRAM_SIZE / SRAM_SEC_SIZE

/-- The pointer `(uint8_t*) checkerbrd_buffer`. -/
def checkerbrd_buffer (cfg : Config) : Nat := cfg.CHECKERBOARD_BUFFER_OFFSET % 65536

/-- The pointer `(uint8_t*) march_buffer`. -/
def march_buffer (cfg : Config) : Nat := cfg.MARCH_BUFFER_OFFSET % 65536

/-- The pointer `&diag_sram_marchb_state`. -/
def marchb_state_address (cfg : Config) : Nat := cfg.MARCHB_STATE_ADDRESS % 65536

/-- A single-bit stuck-at fault: bit `bit` of the byte at `addr` always reads as `value`. -/
structure StuckAt where
  addr : Nat
  bit : Nat
  value : Bool
  deriving DecidableEq, Repr

/-- One memory access, as observed on the bus. -/
inductive Access where
  | rd (a v : Nat)
  | wr (a v : Nat)
  deriving DecidableEq, Repr

/-- Machine state: the memory cells, the injected stuck-at faults, the status register,
the persistent March-B status variable, and two observation fields that the code does
not read: the chronological list of memory accesses and the list of
`checkboardTest (address, size)` calls made so far.

The field `diag_sram_marchb_state` is the value that was stored last into the status
variable.  The variable is a byte of the SRAM, at `marchb_state_address`: the section test
of its section saves, overwrites and restores that byte like its neighbours (this is what
`mem` shows at that address), `DIAG_SRAM_MarchB` never reads the variable and stores it as
its last action on every path, and a read of the variable delivers the stored value through
the stuck bits of its byte (`DIAG_SRAM_MarchB_GetStatus`). -/
structure Machine where
  mem : Nat → Nat
  fault : List StuckAt
  SREG : Nat
  diag_sram_marchb_state : diag_sram_status_t
  log : List Access
  tests : List (Nat × Nat)

/-- Bit `b` of `v` forced to one. -/
def setBit (v b : Nat) : Nat := if v.testBit b then v else v + 2 ^ b

/-- Bit `b` of `v` forced to zero. -/
def clearBit (v b : Nat) : Nat := if v.testBit b then v - 2 ^ b else v

/-- The effect of one stuck bit on a read of address `a` whose cell holds `v`. -/
def force (s : StuckAt) (a v : Nat) : Nat :=
  if a = s.addr then (if s.value then setBit v s.bit else clearBit v s.bit) else v

/-- What a read of address `a` delivers when the cell holds `v`. -/
def stuck (f : List StuckAt) (a v : Nat) : Nat :=
  f.foldl (fun w s => force s a w) v

/-- Value delivered by a read of address `a`. -/
def Machine.peek (M : Machine) (a : Nat) : Nat := stuck M.fault a (M.mem a)

/-- A read access `*(a)`: the value read and the machine afterwards. -/
def rd (M : Machine) (a : Nat) : Nat × Machine :=
  (M.peek a, { M with log := M.log ++ [Access.rd a (M.peek a)] })

/-- A write access `*(a) = v`.  All values stored by the code are bytes. -/
def wr (M : Machine) (a v : Nat) : Machine :=
  { M with mem := fun x => if x = a then v else M.mem x, log := M.log ++ [Access.wr a v] }

/-- Pointer arithmetic `p + k` on a 16-bit data pointer. -/
def ptr (p k : Nat) : Nat := (p + k) % 65536

/-! ## Save and restore loops (the same text in both engines) -/

/-- `for (i = 0; i < size; i++) buffer[i] = *(address + i);` -/
def saveLoop (buf address : Nat) : Nat → Nat → Machine → Machine
  | 0, _, M => M
  | n + 1, i, M =>
    let r := rd M (ptr address i)
    saveLoop buf address n (i + 1) (wr r.2 (ptr buf i) r.1)

/-- `for (i = 0; i < size; i++) if (buffer[i] != *(address + i)) return;` -/
def saveCheck (buf address : Nat) : Nat → Nat → Machine → Except Machine Machine
  | 0, _, M => .ok M
  | n + 1, i, M =>
    let b := rd M (ptr buf i)
    let s := rd b.2 (ptr address i)
    if b.1 ≠ s.1 then .error s.2 else saveCheck buf address n (i + 1) s.2

/-- `for (i = 0; i < size; i++) *(address + i) = buffer[i];` -/
def restoreLoop (buf address : Nat) : Nat → Nat → Machine → Machine
  | 0, _, M => M
  | n + 1, i, M =>
    let r := rd M (ptr buf i)
    restoreLoop buf address n (i + 1) (wr r.2 (ptr address i) r.1)

/-- `for (i = 0; i < size; i++) if (*(address + i) != buffer[i]) return;` -/
def restoreCheck (buf address : Nat) : Nat → Nat → Machine → Except Machine Machine
  | 0, _, M => .ok M
  | n + 1, i, M =>
    let s := rd M (ptr address i)
    let b := rd s.2 (ptr buf i)
    if s.1 ≠ b.1 then .error b.2 else restoreCheck buf address n (i + 1) b.2

/-! ## Checkerboard engine (`diag_sram_checkerboard.c`) -/

/-- `for (i = 0; i < size; i = i + 2) { *(address + i) = x; *(address + i + 1) = y; }`
The first argument is the number of iterations, `(size + 1) / 2`. -/
def patternWrite (address x y : Nat) : Nat → Nat → Machine → Machine
  | 0, _, M => M
  | n + 1, i, M =>
    patternWrite address x y n (i + 2) (wr (wr M (ptr address i) x) (ptr (ptr address i) 1) y)

/-- `for (i = 0; i < size; i = i + 2)
if ((*(address + i) != x) && (*(address + i + 1) != y)) return SRAM_ERROR;`
The second byte is read only when the first one differs (`&&` short-circuits). -/
def patternRead (address x y : Nat) : Nat → Nat → Machine → Except Machine Machine
  | 0, _, M => .ok M
  | n + 1, i, M =>
    let a := rd M (ptr address i)
    if a.1 ≠ x then
      let b := rd a.2 (ptr (ptr address i) 1)
      if b.1 ≠ y then .error b.2 else patternRead address x y n (i + 2) b.2
    else patternRead address x y n (i + 2) a.2

/-- `static diag_sram_status_t checkboardTest(uint8_t* address, uint8_t size)`.
Both call sites pass `size ≤ SRAM_SEC_SIZE = 16`, so the `uint8_t` loop variable
never wraps and the loops stepping by two run `(size + 1) / 2` times.  Inside the
`do` block an `Except.error` is a `return SRAM_ERROR`. -/
def checkboardTest (cfg : Config) (address size : Nat) (M : Machine) :
    diag_sram_status_t × Machine :=
  let M0 : Machine := { M with tests := M.tests ++ [(address, size)] }
  let buf := checkerbrd_buffer cfg
  let run : Except Machine Machine := do
    let M1 ← (if address ≠ buf then
        saveCheck buf address size 0 (saveLoop buf address size 0 M0)
      else pure M0)
    -- Write checkerboard, read checkerboard
    let M2 ← patternRead address 0xAA 0x55 ((size + 1) / 2) 0
        (patternWrite address 0xAA 0x55 ((size + 1) / 2) 0 M1)
    -- Write inverse checkerboard, read inverse checkerboard
    let M3 ← patternRead address 0x55 0xAA ((size + 1) / 2) 0
        (patternWrite address 0x55 0xAA ((size + 1) / 2) 0 M2)
    if address ≠ buf then
      restoreCheck buf address size 0 (restoreLoop buf address size 0 M3)
    else pure M3
  match run with
  | .ok R => (SRAM_OK, R)
  | .error R => (SRAM_ERROR, R)

/-- The loop `for (nSec = 0; nSec < sections; nSec++)` of `DIAG_SRAM_CheckerBoard`;
`Except.error` is the early `return SRAM_ERROR` (before `SREG` is touched again). -/
def checkerSections (cfg : Config) (startAddress : Nat) :
    Nat → Nat → Machine → Except Machine Machine
  | 0, _, M => .ok M
  | n + 1, nSec, M =>
    let p_sram := ptr startAddress ((SRAM_SEC_SIZE * nSec) % 65536)
    match checkboardTest cfg p_sram SRAM_SEC_SIZE M with
    | (SRAM_ERROR, M1) => .error M1
    | (SRAM_OK, M1) => checkerSections cfg startAddress n (nSec + 1) M1

/-- `SREG |= (gieStatus << CPU_I_bp);` on the 8-bit register `SREG`. -/
def restoreGIE (cfg : Config) (gieStatus : Nat) (M : Machine) : Machine :=
  { M with SREG := (M.SREG ||| (gieStatus <<< cfg.CPU_I_bp)) % 256 }

/-- `diag_sram_status_t DIAG_SRAM_CheckerBoard(volatile uint8_t* startAddress,
volatile uint16_t length)`.  `startAddress` is a 16-bit pointer, `length` a `uint16_t`. -/
def DIAG_SRAM_CheckerBoard (cfg : Config) (startAddress length : Nat) (M : Machine) :
    diag_sram_status_t × Machine :=
  let sections := length / SRAM_SEC_SIZE
  let remainder := (length % SRAM_SEC_SIZE) % 256
  -- register bool gieStatus = SREG | CPU_I_bm;
  let gieStatus : Nat := if (M.SREG ||| cfg.CPU_I_bm) ≠ 0 then 1 else 0
  if startAddress < cfg.INTERNAL_SRAM_START % 65536 ∨
      startAddress > (cfg.INTERNAL_SRAM_START + cfg.INTERNAL_SRAM_SIZE) % 65536 ∨
      length = 0 ∨
      length > cfg.INTERNAL_SRAM_SIZE then
    (SRAM_ERROR, M)
  else
    -- SREG &= (~CPU_I_bm);
    let M0 : Machine := { M with SREG := M.SREG &&& (255 - cfg.CPU_I_bm % 256) }
    match checkerSections cfg startAddress sections 0 M0 with
    | .error M1 => (SRAM_ERROR, restoreGIE cfg gieStatus M1)
    | .ok M1 =>
      if remainder ≠ 0 then
        -- sections - 1 is computed on uint16_t
        let p_sram := ptr startAddress ((SRAM_SEC_SIZE * ((sections + 65535) % 65536)) % 65536)
        match checkboardTest cfg p_sram remainder M1 with
        | (SRAM_ERROR, M2) => (SRAM_ERROR, restoreGIE cfg gieStatus M2)
        | (SRAM_OK, M2) => (SRAM_OK, restoreGIE cfg gieStatus M2)
      else (SRAM_OK, restoreGIE cfg gieStatus M1)

/-! ## March-B engine (`diag_sram_marchb.c`) -/

/-- Step-1 loop: `for (i = 0; i < SRAM_SEC_SIZE; i++) *(p_sram + i) = 0x00;` -/
def marchStep1 (p_sram : Nat) : Nat → Nat → Machine → Machine
  | 0, _, M => M
  | n + 1, i, M => marchStep1 p_sram n (i + 1) (wr M (ptr p_sram i) 0x00)

/-- Step-2 loop (ascending): read 0, write `0xFF`; read `0xFF`, write 0; read 0, write `0xFF`. -/
def marchStep2 (p_sram : Nat) : Nat → Nat → Machine → Except Machine Machine
  | 0, _, M => .ok M
  | n + 1, i, M =>
    let r1 := rd M (ptr p_sram i)
    if r1.1 ≠ 0x0 then .error r1.2
    else
      let r2 := rd (wr r1.2 (ptr p_sram i) 0xFF) (ptr p_sram i)
      if r2.1 ≠ 0xFF then .error r2.2
      else
        let r3 := rd (wr r2.2 (ptr p_sram i) 0x0) (ptr p_sram i)
        if r3.1 ≠ 0x0 then .error r3.2
        else marchStep2 p_sram n (i + 1) (wr r3.2 (ptr p_sram i) 0xFF)

/-- Step-3 loop (`for (i = 0; i < SRAM_SEC_SIZE; i++)`): read `0xFF`, write 0, write `0xFF`. -/
def marchStep3 (p_sram : Nat) : Nat → Nat → Machine → Except Machine Machine
  | 0, _, M => .ok M
  | n + 1, i, M =>
    let r := rd M (ptr p_sram i)
    if r.1 ≠ 0xFF then .error r.2
    else marchStep3 p_sram n (i + 1) (wr (wr r.2 (ptr p_sram i) 0x0) (ptr p_sram i) 0xFF)

/-- Step-4 loop `for (i = SRAM_SEC_SIZE; i > 0; i--)`, acting on `*(p_sram + (i - 1))`:
read `0xFF`, write 0, write 1, write 0.  The argument is the loop variable `i`. -/
def marchStep4 (p_sram : Nat) : Nat → Machine → Except Machine Machine
  | 0, M => .ok M
  | i + 1, M =>
    let r := rd M (ptr p_sram i)
    if r.1 ≠ 0xFF then .error r.2
    else marchStep4 p_sram i (wr (wr (wr r.2 (ptr p_sram i) 0) (ptr p_sram i) 1) (ptr p_sram i) 0)

/-- Step-5 loop `for (i = SRAM_SEC_SIZE; i > 0; i--)`, acting on `*(p_sram + (i - 1))`:
read 0, write 1, write 0. -/
def marchStep5 (p_sram : Nat) : Nat → Machine → Except Machine Machine
  | 0, M => .ok M
  | i + 1, M =>
    let r := rd M (ptr p_sram i)
    if r.1 ≠ 0x0 then .error r.2
    else marchStep5 p_sram i (wr (wr r.2 (ptr p_sram i) 1) (ptr p_sram i) 0)

/-- Body of the section loop of `DIAG_SRAM_MarchB` for the section at `p_sram`;
`Except.error` is a `return` taken after `diag_sram_marchb_state = SRAM_ERROR`. -/
def marchSection (cfg : Config) (p_sram : Nat) (M : Machine) : Except Machine Machine := do
  let buf := march_buffer cfg
  let M1 ← (if p_sram ≠ buf then
      saveCheck buf p_sram SRAM_SEC_SIZE 0 (saveLoop buf p_sram SRAM_SEC_SIZE 0 M)
    else pure M)
  let M2 ← marchStep2 p_sram SRAM_SEC_SIZE 0 (marchStep1 p_sram SRAM_SEC_SIZE 0 M1)
  let M3 ← marchStep3 p_sram SRAM_SEC_SIZE 0 M2
  let M4 ← marchStep4 p_sram SRAM_SEC_SIZE M3
  let M5 ← marchStep5 p_sram SRAM_SEC_SIZE M4
  if p_sram ≠ buf then
    restoreCheck buf p_sram SRAM_SEC_SIZE 0 (restoreLoop buf p_sram SRAM_SEC_SIZE 0 M5)
  else pure M5

/-- The loop `for (nSec = 0; nSec < SRAM_NSECS; nSec++)` of `DIAG_SRAM_MarchB`, with
`p_sram = (uint8_t*) (INTERNAL_SRAM_START + (SRAM_SEC_SIZE * nSec))`. -/
def marchSections (cfg : Config) : Nat → Nat → Machine → Except Machine Machine
  | 0, _, M => .ok M
  | n + 1, nSec, M => do
    let p_sram := ptr cfg.INTERNAL_SRAM_START ((SRAM_SEC_SIZE * nSec) % 65536)
    let M1 ← marchSection cfg p_sram M
    marchSections cfg n (nSec + 1) M1

/-- `void DIAG_SRAM_MarchB(void)`: every `return` inside the loop is preceded by
`diag_sram_marchb_state = SRAM_ERROR`, the normal exit by `= SRAM_OK`. -/
def DIAG_SRAM_MarchB (cfg : Config) (M : Machine) : Machine :=
  match marchSections cfg (SRAM_NSECS cfg) 0 M with
  | .error M1 => { M1 with diag_sram_marchb_state := SRAM_ERROR }
  | .ok M1 => { M1 with diag_sram_marchb_state := SRAM_OK }

/-- `diag_sram_status_t DIAG_SRAM_MarchB_GetStatus(void)`, whose body is
`return diag_sram_marchb_state;`: a read of the byte of the status variable, on which the
stuck bits of that byte act as on any other read.  The result is the value of the enum as
read, `0` for `SRAM_OK` and `1` for `SRAM_ERROR`; a faulty byte can deliver other values. -/
def DIAG_SRAM_MarchB_GetStatus (cfg : Config) (M : Machine) : Nat × Machine :=
  (stuck M.fault (marchb_state_address cfg) M.diag_sram_marchb_state.toNat, M)

/-! ## Concrete platforms used in the examples -/

/-- A fault-free machine with all cells zero, `SREG = sreg`, no accesses yet. -/
def zeroMachine (sreg : Nat) : Machine :=
  { mem := fun _ => 0, fault := [], SREG := sreg,
    diag_sram_marchb_state := SRAM_ERROR, log := [], tests := [] }

/-- A 64-byte RAM at `0x4000`: `march_buffer` is section 0, `checkerbrd_buffer` is
section 1 (the two reserved sections of the header files), the interrupt flag is
bit 7 of `SREG` as on every AVR (`CPU_I_bm = 0x80`, `CPU_I_bp = 7`), and the status
variable of March-B is the first byte of section 3. -/
def ram64 : Config :=
  { INTERNAL_SRAM_START := 0x4000, INTERNAL_SRAM_SIZE := 64,
    CHECKERBOARD_BUFFER_OFFSET := 0x4010, MARCH_BUFFER_OFFSET := 0x4000,
    CPU_I_bm := 0x80, CPU_I_bp := 7, MARCHB_STATE_ADDRESS := 0x4030 }

/-- The all-zero machine with bit `b` of the byte at `a` stuck at `v`. -/
def stuckMachine (a b : Nat) (v : Bool) : Machine :=
  { zeroMachine 0 with fault := [{ addr := a, bit := b, value := v }] }

/-- A fault-free machine in which every cell holds the low byte of its own address. -/
def rampMachine : Machine :=
  { zeroMachine 0 with mem := fun a => a % 256 }

/-! ## Auxiliary notions for the proofs -/

/-- The machine that a loop leaves behind, whether it ran to its end or returned early. -/
def final : Except Machine Machine → Machine
  | .ok M => M
  | .error M => M

/-- `M1` and `M2` differ at most in the memory cells and in the access log. -/
def Machine.sameCtl (M1 M2 : Machine) : Prop :=
  M2.fault = M1.fault ∧ M2.SREG = M1.SREG ∧
    M2.diag_sram_marchb_state = M1.diag_sram_marchb_state ∧ M2.tests = M1.tests

/-- Address of a memory access. -/
def Access.addr : Access → Nat
  | .rd a _ => a
  | .wr a _ => a

/-- Addresses written by a list of accesses, in order. -/
def writes : List Access → List Nat
  | [] => []
  | .wr a _ :: l => a :: writes l
  | .rd _ _ :: l => writes l

/-- The global interrupt enable flag of `SREG` is set. -/
def Machine.gie (cfg : Config) (M : Machine) : Bool := M.SREG &&& cfg.CPU_I_bm != 0

/-- The items `f i` for the offsets `i` of `offs`, one offset after the other. -/
def perOffset {α : Type} : List Nat → (Nat → List α) → List α
  | [], _ => []
  | i :: rest, f => f i ++ perOffset rest f

/-- The operations of March notation: read expecting 0 or 1, write 0 or 1. -/
inductive MarchOp where
  | r0
  | r1
  | w0
  | w1
  deriving DecidableEq, Repr

/-- The reference March-B sequence over the offsets `0 .. size - 1` of a section, written
after the specification (section 4.3): step 1 ascending (w0); step 2 ascending
(r0, w1, r1, w0, r0, w1); step 3 ascending (r1, w0, w1); step 4 descending
(r1, w0, w1, w0); step 5 descending (r0, w1, w0).  Each entry is an offset with the
operation applied to it. -/
def marchBReference (size : Nat) : List (Nat × MarchOp) :=
  perOffset (List.range size) (fun i => [(i, MarchOp.w0)]) ++
  perOffset (List.range size) (fun i =>
    [(i, MarchOp.r0), (i, MarchOp.w1), (i, MarchOp.r1), (i, MarchOp.w0), (i, MarchOp.r0),
      (i, MarchOp.w1)]) ++
  perOffset (List.range size) (fun i => [(i, MarchOp.r1), (i, MarchOp.w0), (i, MarchOp.w1)]) ++
  perOffset (List.range size).reverse (fun i =>
    [(i, MarchOp.r1), (i, MarchOp.w0), (i, MarchOp.w1), (i, MarchOp.w0)]) ++
  perOffset (List.range size).reverse (fun i =>
    [(i, MarchOp.r0), (i, MarchOp.w1), (i, MarchOp.w0)])

/-- The accesses of steps 1 to 5 of `DIAG_SRAM_MarchB` to the `size` bytes at `p` when
every read delivers the byte that was stored last, with the bytes the code stores. -/
def marchBTrace (p size : Nat) : List Access :=
  perOffset (List.range size) (fun i => [Access.wr (p + i) 0x00]) ++
  perOffset (List.range size) (fun i =>
    [Access.rd (p + i) 0x00, Access.wr (p + i) 0xFF, Access.rd (p + i) 0xFF,
      Access.wr (p + i) 0x00, Access.rd (p + i) 0x00, Access.wr (p + i) 0xFF]) ++
  perOffset (List.range size) (fun i =>
    [Access.rd (p + i) 0xFF, Access.wr (p + i) 0x00, Access.wr (p + i) 0xFF]) ++
  perOffset (List.range size).reverse (fun i =>
    [Access.rd (p + i) 0xFF, Access.wr (p + i) 0, Access.wr (p + i) 1, Access.wr (p + i) 0]) ++
  perOffset (List.range size).reverse (fun i =>
    [Access.rd (p + i) 0x00, Access.wr (p + i) 1, Access.wr (p + i) 0])

/-- A fault-free machine in which every cell holds `0xFF`. -/
def ffMachine : Machine :=
  { zeroMachine 0 with mem := fun _ => 0xFF }

/-- The outcome is a normal end of the loop, not an early return. -/
def isOk : Except Machine Machine → Bool
  | .ok _ => true
  | .error _ => false

/-- The machine whose cells hold the low byte of their address, with the given stuck bits. -/
def faultyRamp (f : List StuckAt) : Machine :=
  { rampMachine with fault := f }

/-- The status and machine that `checkboardTest` returns for an outcome of its body. -/
def statusOf : Except Machine Machine → diag_sram_status_t × Machine
  | .ok R => (SRAM_OK, R)
  | .error R => (SRAM_ERROR, R)

/-- The save phase of `checkboardTest`: skipped for the buffer itself. -/
def checkboardSaved (cfg : Config) (address size : Nat) (M0 : Machine) :
    Except Machine Machine :=
  if address ≠ checkerbrd_buffer cfg then
    saveCheck (checkerbrd_buffer cfg) address size 0
      (saveLoop (checkerbrd_buffer cfg) address size 0 M0)
  else pure M0

/-- The restore phase of `checkboardTest`: skipped for the buffer itself. -/
def checkboardRestored (cfg : Config) (address size : Nat) (M3 : Machine) :
    Except Machine Machine :=
  if address ≠ checkerbrd_buffer cfg then
    restoreCheck (checkerbrd_buffer cfg) address size 0
      (restoreLoop (checkerbrd_buffer cfg) address size 0 M3)
  else pure M3

/-- Number of bytes that the pattern loops of `checkboardTest` write for `size`: `size`
rounded up to an even number. -/
def patternWidth (size : Nat) : Nat := 2 * ((size + 1) / 2)

/-- Memory content after a passing `checkboardTest (address, size)` on fault-free memory
with content `m`, for `checkerbrd_buffer` at `buf`. -/
def afterTest (buf address size : Nat) (m : Nat → Nat) : Nat → Nat := fun a =>
  if address = buf then
    if address ≤ a ∧ a < address + patternWidth size then
      (if (a - address) % 2 = 0 then 0x55 else 0xAA)
    else m a
  else if buf ≤ a ∧ a < buf + size then m (address + (a - buf))
  else if address + size ≤ a ∧ a < address + patternWidth size then 0xAA
  else m a

/-- Memory content after `n` passing full-section tests from section `nSec` on. -/
def afterSections (buf startAddress : Nat) : Nat → Nat → (Nat → Nat) → (Nat → Nat)
  | 0, _, m => m
  | n + 1, nSec, m =>
    afterSections buf startAddress n (nSec + 1)
      (afterTest buf (startAddress + SRAM_SEC_SIZE * nSec) SRAM_SEC_SIZE m)

/-- The section tests that `DIAG_SRAM_CheckerBoard` has in store for an accepted call, in
order: the full sections, then the remainder at the base the code computes for it. -/
def plannedTests (startAddress length : Nat) : List (Nat × Nat) :=
  (List.range' 0 (length / SRAM_SEC_SIZE)).map
      (fun k => (ptr startAddress ((SRAM_SEC_SIZE * k) % 65536), SRAM_SEC_SIZE))
    ++ (if (length % SRAM_SEC_SIZE) % 256 ≠ 0 then
      [(ptr startAddress
          ((SRAM_SEC_SIZE * ((length / SRAM_SEC_SIZE + 65535) % 65536)) % 65536),
        (length % SRAM_SEC_SIZE) % 256)] else [])

/-- Run the section tests of a list one after the other, up to the first one that returns
`SRAM_ERROR`. -/
def runTests (cfg : Config) : List (Nat × Nat) → Machine → Except Machine Machine
  | [], M => .ok M
  | t :: rest, M =>
    match checkboardTest cfg t.1 t.2 M with
    | (SRAM_ERROR, M1) => .error M1
    | (SRAM_OK, M1) => runTests cfg rest M1

/-- The save phase of the section test of `DIAG_SRAM_MarchB`: skipped for the buffer itself. -/
def marchSaved (cfg : Config) (p : Nat) (M : Machine) : Except Machine Machine :=
  if p ≠ march_buffer cfg then
    saveCheck (march_buffer cfg) p SRAM_SEC_SIZE 0
      (saveLoop (march_buffer cfg) p SRAM_SEC_SIZE 0 M)
  else pure M

/-- Steps 1 to 5 of the section test, from the machine that the save phase leaves. -/
def marchSteps (p : Nat) (M1 : Machine) : Except Machine Machine := do
  let M2 ← marchStep2 p SRAM_SEC_SIZE 0 (marchStep1 p SRAM_SEC_SIZE 0 M1)
  let M3 ← marchStep3 p SRAM_SEC_SIZE 0 M2
  let M4 ← marchStep4 p SRAM_SEC_SIZE M3
  marchStep5 p SRAM_SEC_SIZE M4

/-- The restore phase of the section test of `DIAG_SRAM_MarchB`: skipped for the buffer
itself. -/
def marchRestored (cfg : Config) (p : Nat) (M5 : Machine) : Except Machine Machine :=
  if p ≠ march_buffer cfg then
    restoreCheck (march_buffer cfg) p SRAM_SEC_SIZE 0
      (restoreLoop (march_buffer cfg) p SRAM_SEC_SIZE 0 M5)
  else pure M5

/-- The accesses of the save phase of a section test (the copy, then the check) when the
section at `p` holds `m` and every read delivers the byte that was stored last. -/
def saveTrace (buf p size : Nat) (m : Nat → Nat) : List Access :=
  perOffset (List.range size) (fun i =>
    [Access.rd (p + i) (m (p + i)), Access.wr (buf + i) (m (p + i))]) ++
  perOffset (List.range size) (fun i =>
    [Access.rd (buf + i) (m (p + i)), Access.rd (p + i) (m (p + i))])

/-- The accesses of the restore phase of a section test (the copy back, then the check) when
the buffer holds the bytes `m` of the section at `p`. -/
def restoreTrace (buf p size : Nat) (m : Nat → Nat) : List Access :=
  perOffset (List.range size) (fun i =>
    [Access.rd (buf + i) (m (p + i)), Access.wr (p + i) (m (p + i))]) ++
  perOffset (List.range size) (fun i =>
    [Access.rd (p + i) (m (p + i)), Access.rd (buf + i) (m (p + i))])

/-- What an access to the section at `p` does to bit `b` of its byte, as an offset and a
March operation: the bit is read as 0 or 1, or written 0 or 1. -/
def marchOpBit (p b : Nat) : Access → Nat × MarchOp
  | .rd a v => (a - p, if v.testBit b then MarchOp.r1 else MarchOp.r0)
  | .wr a v => (a - p, if v.testBit b then MarchOp.w1 else MarchOp.w0)

/-- The reference sequence with the "write 1" of steps 4 and 5 turned into a write of 0. -/
def marchBHighBits (size : Nat) : List (Nat × MarchOp) :=
  perOffset (List.range size) (fun i => [(i, MarchOp.w0)]) ++
  perOffset (List.range size) (fun i =>
    [(i, MarchOp.r0), (i, MarchOp.w1), (i, MarchOp.r1), (i, MarchOp.w0), (i, MarchOp.r0),
      (i, MarchOp.w1)]) ++
  perOffset (List.range size) (fun i => [(i, MarchOp.r1), (i, MarchOp.w0), (i, MarchOp.w1)]) ++
  perOffset (List.range size).reverse (fun i =>
    [(i, MarchOp.r1), (i, MarchOp.w0), (i, MarchOp.w0), (i, MarchOp.w0)]) ++
  perOffset (List.range size).reverse (fun i =>
    [(i, MarchOp.r0), (i, MarchOp.w0), (i, MarchOp.w0)])

/-! ## Frame lemmas: the loops touch only the cells and the log -/

theorem sameCtl_refl (M : Machine) : M.sameCtl M := ⟨rfl, rfl, rfl, rfl⟩

theorem sameCtl_trans {A B C : Machine} (h1 : A.sameCtl B) (h2 : B.sameCtl C) : A.sameCtl C :=
  ⟨h2.1.trans h1.1, h2.2.1.trans h1.2.1, h2.2.2.1.trans h1.2.2.1, h2.2.2.2.trans h1.2.2.2⟩

theorem rd_ctl (M : Machine) (a : Nat) : M.sameCtl (rd M a).2 := ⟨rfl, rfl, rfl, rfl⟩

theorem wr_ctl (M : Machine) (a v : Nat) : M.sameCtl (wr M a v) := ⟨rfl, rfl, rfl, rfl⟩

theorem saveLoop_ctl (buf address : Nat) :
    ∀ (n i : Nat) (M : Machine), M.sameCtl (saveLoop buf address n i M) := by
  intro n
  induction n with
  | zero => intro i M; exact sameCtl_refl M
  | succ n ih =>
    intro i M
    simp only [saveLoop]
    exact sameCtl_trans (sameCtl_trans (rd_ctl _ _) (wr_ctl _ _ _)) (ih _ _)

theorem restoreLoop_ctl (buf address : Nat) :
    ∀ (n i : Nat) (M : Machine), M.sameCtl (restoreLoop buf address n i M) := by
  intro n
  induction n with
  | zero => intro i M; exact sameCtl_refl M
  | succ n ih =>
    intro i M
    simp only [restoreLoop]
    exact sameCtl_trans (sameCtl_trans (rd_ctl _ _) (wr_ctl _ _ _)) (ih _ _)

theorem saveCheck_ctl (buf address : Nat) :
    ∀ (n i : Nat) (M : Machine), M.sameCtl (final (saveCheck buf address n i M)) := by
  intro n
  induction n with
  | zero => intro i M; exact sameCtl_refl M
  | succ n ih =>
    intro i M
    simp only [saveCheck]
    split
    · exact sameCtl_trans (rd_ctl _ _) (rd_ctl _ _)
    · exact sameCtl_trans (sameCtl_trans (rd_ctl _ _) (rd_ctl _ _)) (ih _ _)

theorem restoreCheck_ctl (buf address : Nat) :
    ∀ (n i : Nat) (M : Machine), M.sameCtl (final (restoreCheck buf address n i M)) := by
  intro n
  induction n with
  | zero => intro i M; exact sameCtl_refl M
  | succ n ih =>
    intro i M
    simp only [restoreCheck]
    split
    · exact sameCtl_trans (rd_ctl _ _) (rd_ctl _ _)
    · exact sameCtl_trans (sameCtl_trans (rd_ctl _ _) (rd_ctl _ _)) (ih _ _)

theorem patternWrite_ctl (address x y : Nat) :
    ∀ (n i : Nat) (M : Machine), M.sameCtl (patternWrite address x y n i M) := by
  intro n
  induction n with
  | zero => intro i M; exact sameCtl_refl M
  | succ n ih =>
    intro i M
    simp only [patternWrite]
    exact sameCtl_trans (sameCtl_trans (wr_ctl _ _ _) (wr_ctl _ _ _)) (ih _ _)

theorem patternRead_ctl (address x y : Nat) :
    ∀ (n i : Nat) (M : Machine), M.sameCtl (final (patternRead address x y n i M)) := by
  intro n
  induction n with
  | zero => intro i M; exact sameCtl_refl M
  | succ n ih =>
    intro i M
    simp only [patternRead]
    split
    · split
      · exact sameCtl_trans (rd_ctl _ _) (rd_ctl _ _)
      · exact sameCtl_trans (sameCtl_trans (rd_ctl _ _) (rd_ctl _ _)) (ih _ _)
    · exact sameCtl_trans (rd_ctl _ _) (ih _ _)

theorem marchStep1_ctl (p : Nat) :
    ∀ (n i : Nat) (M : Machine), M.sameCtl (marchStep1 p n i M) := by
  intro n
  induction n with
  | zero => intro i M; exact sameCtl_refl M
  | succ n ih =>
    intro i M
    simp only [marchStep1]
    exact sameCtl_trans (wr_ctl _ _ _) (ih _ _)

theorem marchStep2_ctl (p : Nat) :
    ∀ (n i : Nat) (M : Machine), M.sameCtl (final (marchStep2 p n i M)) := by
  intro n
  induction n with
  | zero => intro i M; exact sameCtl_refl M
  | succ n ih =>
    intro i M
    simp only [marchStep2]
    split
    · exact rd_ctl _ _
    · split
      · exact ⟨rfl, rfl, rfl, rfl⟩
      · split
        · exact ⟨rfl, rfl, rfl, rfl⟩
        · exact sameCtl_trans ⟨rfl, rfl, rfl, rfl⟩ (ih _ _)

theorem marchStep3_ctl (p : Nat) :
    ∀ (n i : Nat) (M : Machine), M.sameCtl (final (marchStep3 p n i M)) := by
  intro n
  induction n with
  | zero => intro i M; exact sameCtl_refl M
  | succ n ih =>
    intro i M
    simp only [marchStep3]
    split
    · exact rd_ctl _ _
    · exact sameCtl_trans ⟨rfl, rfl, rfl, rfl⟩ (ih _ _)

theorem marchStep4_ctl (p : Nat) :
    ∀ (i : Nat) (M : Machine), M.sameCtl (final (marchStep4 p i M)) := by
  intro n
  induction n with
  | zero => intro M; exact sameCtl_refl M
  | succ n ih =>
    intro M
    simp only [marchStep4]
    split
    · exact rd_ctl _ _
    · exact sameCtl_trans ⟨rfl, rfl, rfl, rfl⟩ (ih _)

theorem marchStep5_ctl (p : Nat) :
    ∀ (i : Nat) (M : Machine), M.sameCtl (final (marchStep5 p i M)) := by
  intro n
  induction n with
  | zero => intro M; exact sameCtl_refl M
  | succ n ih =>
    intro M
    simp only [marchStep5]
    split
    · exact rd_ctl _ _
    · exact sameCtl_trans ⟨rfl, rfl, rfl, rfl⟩ (ih _)

theorem bind_ctl {M : Machine} {e : Except Machine Machine}
    {f : Machine → Except Machine Machine} (he : M.sameCtl (final e))
    (hf : ∀ R : Machine, R.sameCtl (final (f R))) : M.sameCtl (final (e >>= f)) := by
  cases e with
  | error R => simpa [bind, Except.bind, final] using he
  | ok R =>
    simp only [bind, Except.bind]
    exact sameCtl_trans he (hf R)

theorem saved_ctl (buf p : Nat) (n : Nat) (M : Machine) :
    M.sameCtl (final (if p ≠ buf then saveCheck buf p n 0 (saveLoop buf p n 0 M)
      else (pure M : Except Machine Machine))) := by
  split
  · exact sameCtl_trans (saveLoop_ctl _ _ _ _ _) (saveCheck_ctl _ _ _ _ _)
  · exact sameCtl_refl M

theorem restored_ctl (buf p : Nat) (n : Nat) (M : Machine) :
    M.sameCtl (final (if p ≠ buf then restoreCheck buf p n 0 (restoreLoop buf p n 0 M)
      else (pure M : Except Machine Machine))) := by
  split
  · exact sameCtl_trans (restoreLoop_ctl _ _ _ _ _) (restoreCheck_ctl _ _ _ _ _)
  · exact sameCtl_refl M

theorem marchSection_ctl (cfg : Config) (p : Nat) (M : Machine) :
    M.sameCtl (final (marchSection cfg p M)) := by
  unfold marchSection
  refine bind_ctl (saved_ctl _ _ _ _) (fun M1 => ?_)
  refine bind_ctl (sameCtl_trans (marchStep1_ctl _ _ _ _) (marchStep2_ctl _ _ _ _)) (fun M2 => ?_)
  refine bind_ctl (marchStep3_ctl _ _ _ _) (fun M3 => ?_)
  refine bind_ctl (marchStep4_ctl _ _ _) (fun M4 => ?_)
  refine bind_ctl (marchStep5_ctl _ _ _) (fun M5 => ?_)
  exact restored_ctl _ _ _ _

theorem marchSections_ctl (cfg : Config) :
    ∀ (n nSec : Nat) (M : Machine), M.sameCtl (final (marchSections cfg n nSec M)) := by
  intro n
  induction n with
  | zero => intro nSec M; exact sameCtl_refl M
  | succ n ih =>
    intro nSec M
    simp only [marchSections]
    exact bind_ctl (marchSection_ctl _ _ _) (fun R => ih _ _)

/-- A call of `checkboardTest` records itself in `tests` and leaves the other control fields alone. -/
theorem checkboardTest_ctl (cfg : Config) (address size : Nat) (M : Machine) :
    (checkboardTest cfg address size M).2.fault = M.fault ∧
    (checkboardTest cfg address size M).2.SREG = M.SREG ∧
    (checkboardTest cfg address size M).2.diag_sram_marchb_state = M.diag_sram_marchb_state ∧
    (checkboardTest cfg address size M).2.tests = M.tests ++ [(address, size)] := by
  have key : ∀ (e : Except Machine Machine),
      (match e with
        | .ok R => (SRAM_OK, R)
        | .error R => (SRAM_ERROR, R) : diag_sram_status_t × Machine).2 = final e := by
    intro e; cases e <;> rfl
  unfold checkboardTest
  simp only [key]
  have h : Machine.sameCtl { M with tests := M.tests ++ [(address, size)] } (final (do
      let M1 ← (if address ≠ checkerbrd_buffer cfg then
          saveCheck (checkerbrd_buffer cfg) address size 0
            (saveLoop (checkerbrd_buffer cfg) address size 0
              { M with tests := M.tests ++ [(address, size)] })
        else pure { M with tests := M.tests ++ [(address, size)] })
      let M2 ← patternRead address 0xAA 0x55 ((size + 1) / 2) 0
          (patternWrite address 0xAA 0x55 ((size + 1) / 2) 0 M1)
      let M3 ← patternRead address 0x55 0xAA ((size + 1) / 2) 0
          (patternWrite address 0x55 0xAA ((size + 1) / 2) 0 M2)
      if address ≠ checkerbrd_buffer cfg then
        restoreCheck (checkerbrd_buffer cfg) address size 0
          (restoreLoop (checkerbrd_buffer cfg) address size 0 M3)
      else pure M3)) := by
    refine bind_ctl (saved_ctl _ _ _ _) (fun M1 => ?_)
    refine bind_ctl (sameCtl_trans (patternWrite_ctl _ _ _ _ _ _) (patternRead_ctl _ _ _ _ _ _))
      (fun M2 => ?_)
    refine bind_ctl (sameCtl_trans (patternWrite_ctl _ _ _ _ _ _) (patternRead_ctl _ _ _ _ _ _))
      (fun M3 => ?_)
    exact restored_ctl _ _ _ _
  exact h

/-! ## March-B detects every single stuck-at bit -/

theorem setBit_ne_zero (v b : Nat) : setBit v b ≠ 0 := by
  unfold setBit
  split
  · rename_i h
    intro hv
    rw [hv] at h
    simp at h
  · have : 0 < 2 ^ b := Nat.two_pow_pos b
    omega

theorem clearBit_ff_ne (b : Nat) (hb : b < 8) : clearBit 0xFF b ≠ 0xFF := by
  interval_cases b <;> decide

theorem peek_wr_same (M : Machine) (a v : Nat) : (wr M a v).peek a = stuck M.fault a v := by
  simp [Machine.peek, wr]

theorem rd_fst (M : Machine) (a : Nat) : (rd M a).1 = M.peek a := rfl

/-- The step-2 body aborts at a cell with a stuck bit, whatever the cell holds. -/
theorem marchStep2_detects (p : Nat) (s : StuckAt) (hb : s.bit < 8) :
    ∀ (n i : Nat) (M : Machine), M.fault = [s] →
      (∃ j, i ≤ j ∧ j < i + n ∧ ptr p j = s.addr) →
      ∃ R, marchStep2 p n i M = .error R := by
  intro n
  induction n with
  | zero => intro i M _ ⟨j, h1, h2, _⟩; omega
  | succ n ih =>
    intro i M hf ⟨j, h1, h2, h3⟩
    simp only [marchStep2]
    split
    · exact ⟨_, rfl⟩
    · rename_i hr1
      split
      · exact ⟨_, rfl⟩
      · rename_i hr2
        split
        · exact ⟨_, rfl⟩
        · rename_i hr3
          by_cases hji : j = i
          · exfalso
            subst hji
            simp only [rd_fst, ne_eq, not_not] at hr1 hr2
            cases hv : s.value with
            | true =>
              apply setBit_ne_zero (M.mem s.addr) s.bit
              simpa [Machine.peek, stuck, force, hf, h3, hv] using hr1
            | false =>
              apply clearBit_ff_ne s.bit hb
              rw [peek_wr_same] at hr2
              simpa [stuck, force, hf, h3, hv, rd] using hr2
          · apply ih
            · exact hf
            · exact ⟨j, by omega, by omega, h3⟩

theorem bind_detect {e : Except Machine Machine} {f : Machine → Except Machine Machine}
    (P : Machine → Prop) (he : ∀ R, e = .ok R → P R)
    (hf : ∀ R, P R → ∃ R1, f R = .error R1) : ∃ R1, (e >>= f) = .error R1 := by
  cases e with
  | error R => exact ⟨R, rfl⟩
  | ok R => exact hf R (he R rfl)

theorem fault_of_ok {M R : Machine} {e : Except Machine Machine}
    (h : M.sameCtl (final e)) (he : e = .ok R) : R.fault = M.fault := by
  subst he
  exact h.1

theorem marchSection_detects (cfg : Config) (p : Nat) (s : StuckAt) (hb : s.bit < 8)
    (M : Machine) (hf : M.fault = [s])
    (hj : ∃ j, j < SRAM_SEC_SIZE ∧ ptr p j = s.addr) :
    ∃ R, marchSection cfg p M = .error R := by
  obtain ⟨j, hj1, hj2⟩ := hj
  unfold marchSection
  refine bind_detect (fun R => R.fault = [s])
    (fun R hR => (fault_of_ok (saved_ctl _ _ _ _) hR).trans hf) (fun M1 hM1 => ?_)
  obtain ⟨R, hR⟩ := marchStep2_detects p s hb SRAM_SEC_SIZE 0
    (marchStep1 p SRAM_SEC_SIZE 0 M1) ((marchStep1_ctl _ _ _ _).1.trans hM1)
    ⟨j, Nat.zero_le _, by omega, hj2⟩
  exact ⟨R, by rw [hR]; rfl⟩

theorem marchSections_detects (cfg : Config) (s : StuckAt) (hb : s.bit < 8) :
    ∀ (n nSec : Nat) (M : Machine), M.fault = [s] →
      (∃ k j, nSec ≤ k ∧ k < nSec + n ∧ j < SRAM_SEC_SIZE ∧
        ptr (ptr cfg.INTERNAL_SRAM_START ((SRAM_SEC_SIZE * k) % 65536)) j = s.addr) →
      ∃ R, marchSections cfg n nSec M = .error R := by
  intro n
  induction n with
  | zero => intro nSec M _ ⟨k, j, h1, h2, _⟩; omega
  | succ n ih =>
    intro nSec M hf ⟨k, j, h1, h2, h3, h4⟩
    simp only [marchSections]
    by_cases hk : k = nSec
    · subst hk
      obtain ⟨R, hR⟩ := marchSection_detects cfg _ s hb M hf ⟨j, h3, h4⟩
      exact ⟨R, by rw [hR]; rfl⟩
    · exact bind_detect (fun R => R.fault = [s])
        (fun R hR => (fault_of_ok (marchSection_ctl _ _ _) hR).trans hf)
        (fun M1 hM1 => ih (nSec + 1) M1 hM1 ⟨k, j, by omega, by omega, h3, h4⟩)

theorem DIAG_SRAM_MarchB_fault (cfg : Config) (M : Machine) :
    (DIAG_SRAM_MarchB cfg M).fault = M.fault := by
  have h := (marchSections_ctl cfg (SRAM_NSECS cfg) 0 M).1
  unfold DIAG_SRAM_MarchB
  cases hrun : marchSections cfg (SRAM_NSECS cfg) 0 M with
  | ok R => rw [hrun] at h; exact h
  | error R => rw [hrun] at h; exact h

/-- How one stuck bit acts on a byte that holds the code `1` of `SRAM_ERROR`. -/
theorem stuck_one_iff (s : StuckAt) (a : Nat) (hbit : s.bit < 8) :
    stuck [s] a 1 = 1 ↔
      ¬ (s.addr = a ∧ ((s.bit = 0 ∧ s.value = false) ∨ (s.bit ≠ 0 ∧ s.value = true))) := by
  obtain ⟨addr, bit, value⟩ := s
  simp only at hbit ⊢
  by_cases h : a = addr
  · subst h
    have h1 : ∀ b, b < 8 → b ≠ 0 → Nat.testBit 1 b = false := by
      intro b hb hne
      interval_cases b <;> first | exact absurd rfl hne | rfl
    by_cases hb0 : bit = 0
    · subst hb0
      cases value <;> simp [stuck, force, setBit, clearBit]
    · cases value <;> simp [stuck, force, setBit, clearBit, h1 bit hbit hb0, hb0]
  · have h2 : ¬ addr = a := fun e => h e.symm
    simp [stuck, force, h, h2]

/-- C3 (March-B fault sensitivity), amended: if one bit of one byte of the tested region
`[INTERNAL_SRAM_START, INTERNAL_SRAM_START + SRAM_NSECS * SRAM_SEC_SIZE)` is stuck at 0
or at 1, then whatever the memory holds `DIAG_SRAM_MarchB` detects it and stores
`SRAM_ERROR`, and the status read by `DIAG_SRAM_MarchB_GetStatus` afterwards is
`SRAM_ERROR` unless the stuck bit lies in the byte of `diag_sram_marchb_state` itself and
changes the stored code 1, as bit 0 stuck at 0 and each of the bits 1 to 7 stuck at 1 do. -/
theorem marchB_detects_stuck_bit (cfg : Config) (M : Machine) (s : StuckAt)
    (hfault : M.fault = [s]) (hbit : s.bit < 8)
    (hlo : cfg.INTERNAL_SRAM_START ≤ s.addr)
    (hhi : s.addr < cfg.INTERNAL_SRAM_START + SRAM_NSECS cfg * SRAM_SEC_SIZE)
    (hfit : cfg.INTERNAL_SRAM_START + SRAM_NSECS cfg * SRAM_SEC_SIZE ≤ 65536) :
    (DIAG_SRAM_MarchB cfg M).diag_sram_marchb_state = SRAM_ERROR ∧
    ((DIAG_SRAM_MarchB_GetStatus cfg (DIAG_SRAM_MarchB cfg M)).1 = SRAM_ERROR.toNat ↔
      ¬ (s.addr = marchb_state_address cfg ∧
        ((s.bit = 0 ∧ s.value = false) ∨ (s.bit ≠ 0 ∧ s.value = true)))) := by
  obtain ⟨R, hR⟩ := marchSections_detects cfg s hbit (SRAM_NSECS cfg) 0 M hfault
    ⟨(s.addr - cfg.INTERNAL_SRAM_START) / 16, (s.addr - cfg.INTERNAL_SRAM_START) % 16,
      Nat.zero_le _, by
        simp only [SRAM_SEC_SIZE] at hhi hfit ⊢
        omega, by
        simp only [SRAM_SEC_SIZE]
        omega, by
        simp only [SRAM_SEC_SIZE, ptr] at hhi hfit ⊢
        omega⟩
  have hst : (DIAG_SRAM_MarchB cfg M).diag_sram_marchb_state = SRAM_ERROR := by
    simp only [DIAG_SRAM_MarchB, hR]
  refine ⟨hst, ?_⟩
  simp only [DIAG_SRAM_MarchB_GetStatus, DIAG_SRAM_MarchB_fault, hfault, hst]
  exact stuck_one_iff s (marchb_state_address cfg) hbit

/-- The scenario of C3: a 64-byte RAM in four sections, bit 0 of the byte at offset 37
stuck at 1; the status variable is another byte, and the status read is `SRAM_ERROR`. -/
theorem marchB_detects_stuck_bit_witness :
    (DIAG_SRAM_MarchB ram64 (stuckMachine 0x4025 0 true)).diag_sram_marchb_state
      = SRAM_ERROR ∧
    (DIAG_SRAM_MarchB_GetStatus ram64 (DIAG_SRAM_MarchB ram64 (stuckMachine 0x4025 0 true))).1
      = SRAM_ERROR.toNat :=
  ⟨(marchB_detects_stuck_bit ram64 (stuckMachine 0x4025 0 true)
      { addr := 0x4025, bit := 0, value := true } rfl (by decide) (by decide) (by decide)
      (by decide)).1,
    (marchB_detects_stuck_bit ram64 (stuckMachine 0x4025 0 true)
      { addr := 0x4025, bit := 0, value := true } rfl (by decide) (by decide) (by decide)
      (by decide)).2.mpr (by decide)⟩

set_option maxRecDepth 100000 in
/-- C3 as stated fails: in the 64-byte RAM whose byte `0x4030`, inside the tested region,
holds `diag_sram_marchb_state`, let bit 0 of that byte be stuck at 0 and all other cells be
fault-free.  The run detects the fault and stores `SRAM_ERROR`, but the code 1 reads back
from the faulty byte as 0: `DIAG_SRAM_MarchB_GetStatus` returns `SRAM_OK`. -/
theorem marchB_stuck_status_bit_reads_ok :
    (stuckMachine 0x4030 0 false).fault = [{ addr := 0x4030, bit := 0, value := false }] ∧
    ram64.INTERNAL_SRAM_START ≤ 0x4030 ∧
    0x4030 < ram64.INTERNAL_SRAM_START + SRAM_NSECS ram64 * SRAM_SEC_SIZE ∧
    marchb_state_address ram64 = 0x4030 ∧
    (DIAG_SRAM_MarchB ram64 (stuckMachine 0x4030 0 false)).diag_sram_marchb_state
      = SRAM_ERROR ∧
    (DIAG_SRAM_MarchB_GetStatus ram64 (DIAG_SRAM_MarchB ram64 (stuckMachine 0x4030 0 false))).1
      = SRAM_OK.toNat ∧
    (DIAG_SRAM_MarchB_GetStatus ram64 (DIAG_SRAM_MarchB ram64 (stuckMachine 0x4030 0 false))).1
      ≠ SRAM_ERROR.toNat := by
  decide

/-! ## Which section tests `DIAG_SRAM_CheckerBoard` runs -/

theorem error_ne_ok : SRAM_ERROR ≠ SRAM_OK := by decide

theorem checkerSections_tests (cfg : Config) (startAddress : Nat) :
    ∀ (n nSec : Nat) (M R : Machine), checkerSections cfg startAddress n nSec M = .ok R →
      R.tests = M.tests ++ (List.range' nSec n).map
        (fun k => (ptr startAddress ((SRAM_SEC_SIZE * k) % 65536), SRAM_SEC_SIZE)) := by
  intro n
  induction n with
  | zero =>
    intro nSec M R h
    simp only [checkerSections, Except.ok.injEq] at h
    simp [h]
  | succ n ih =>
    intro nSec M R h
    simp only [checkerSections] at h
    have hc := (checkboardTest_ctl cfg
      (ptr startAddress ((SRAM_SEC_SIZE * nSec) % 65536)) SRAM_SEC_SIZE M).2.2.2
    cases hres : checkboardTest cfg
      (ptr startAddress ((SRAM_SEC_SIZE * nSec) % 65536)) SRAM_SEC_SIZE M with
    | mk st M1 =>
      rw [hres] at h hc
      cases st with
      | SRAM_ERROR => simp at h
      | SRAM_OK =>
        simp only at h hc
        rw [ih _ _ _ h, hc]
        simp [List.range'_succ]

theorem DIAG_SRAM_CheckerBoard_rejected (cfg : Config) (startAddress length : Nat) (M : Machine)
    (h : startAddress < cfg.INTERNAL_SRAM_START % 65536 ∨
      startAddress > (cfg.INTERNAL_SRAM_START + cfg.INTERNAL_SRAM_SIZE) % 65536 ∨
      length = 0 ∨ length > cfg.INTERNAL_SRAM_SIZE) :
    DIAG_SRAM_CheckerBoard cfg startAddress length M = (SRAM_ERROR, M) := by
  unfold DIAG_SRAM_CheckerBoard
  exact if_pos h

theorem DIAG_SRAM_CheckerBoard_accepted (cfg : Config) (startAddress length : Nat) (M : Machine)
    (h : ¬ (startAddress < cfg.INTERNAL_SRAM_START % 65536 ∨
      startAddress > (cfg.INTERNAL_SRAM_START + cfg.INTERNAL_SRAM_SIZE) % 65536 ∨
      length = 0 ∨ length > cfg.INTERNAL_SRAM_SIZE)) :
    DIAG_SRAM_CheckerBoard cfg startAddress length M =
      match checkerSections cfg startAddress (length / SRAM_SEC_SIZE) 0
          { M with SREG := M.SREG &&& (255 - cfg.CPU_I_bm % 256) } with
      | .error M1 =>
        (SRAM_ERROR, restoreGIE cfg (if (M.SREG ||| cfg.CPU_I_bm) ≠ 0 then 1 else 0) M1)
      | .ok M1 =>
        if (length % SRAM_SEC_SIZE) % 256 ≠ 0 then
          match checkboardTest cfg (ptr startAddress
            ((SRAM_SEC_SIZE * ((length / SRAM_SEC_SIZE + 65535) % 65536)) % 65536))
            ((length % SRAM_SEC_SIZE) % 256) M1 with
          | (SRAM_ERROR, M2) =>
            (SRAM_ERROR, restoreGIE cfg (if (M.SREG ||| cfg.CPU_I_bm) ≠ 0 then 1 else 0) M2)
          | (SRAM_OK, M2) =>
            (SRAM_OK, restoreGIE cfg (if (M.SREG ||| cfg.CPU_I_bm) ≠ 0 then 1 else 0) M2)
        else (SRAM_OK, restoreGIE cfg (if (M.SREG ||| cfg.CPU_I_bm) ≠ 0 then 1 else 0) M1) := by
  unfold DIAG_SRAM_CheckerBoard
  rw [if_neg h]

/-- The section tests run by a call that returns `SRAM_OK`, in 16-bit pointer arithmetic. -/
theorem checkerBoard_tests_of_ok (cfg : Config) (startAddress length : Nat) (M : Machine)
    (hok : (DIAG_SRAM_CheckerBoard cfg startAddress length M).1 = SRAM_OK) :
    (DIAG_SRAM_CheckerBoard cfg startAddress length M).2.tests =
      M.tests ++ (List.range' 0 (length / SRAM_SEC_SIZE)).map
          (fun k => (ptr startAddress ((SRAM_SEC_SIZE * k) % 65536), SRAM_SEC_SIZE))
        ++ (if (length % SRAM_SEC_SIZE) % 256 ≠ 0 then
          [(ptr startAddress
              ((SRAM_SEC_SIZE * ((length / SRAM_SEC_SIZE + 65535) % 65536)) % 65536),
            (length % SRAM_SEC_SIZE) % 256)] else []) := by
  by_cases hacc : startAddress < cfg.INTERNAL_SRAM_START % 65536 ∨
      startAddress > (cfg.INTERNAL_SRAM_START + cfg.INTERNAL_SRAM_SIZE) % 65536 ∨
      length = 0 ∨ length > cfg.INTERNAL_SRAM_SIZE
  · rw [DIAG_SRAM_CheckerBoard_rejected cfg startAddress length M hacc] at hok
    exact absurd hok error_ne_ok
  · rw [DIAG_SRAM_CheckerBoard_accepted cfg startAddress length M hacc] at hok ⊢
    cases hsec : checkerSections cfg startAddress (length / SRAM_SEC_SIZE) 0
        { M with SREG := M.SREG &&& (255 - cfg.CPU_I_bm % 256) } with
    | error M1 => rw [hsec] at hok; exact absurd hok error_ne_ok
    | ok M1 =>
      have h1 := checkerSections_tests cfg startAddress _ _ _ _ hsec
      rw [hsec] at hok
      dsimp only at hok ⊢
      split
      · rename_i hrem
        rw [if_pos hrem] at hok
        have hc := (checkboardTest_ctl cfg (ptr startAddress
          ((SRAM_SEC_SIZE * ((length / SRAM_SEC_SIZE + 65535) % 65536)) % 65536))
          ((length % SRAM_SEC_SIZE) % 256) M1).2.2.2
        cases hres : checkboardTest cfg (ptr startAddress
          ((SRAM_SEC_SIZE * ((length / SRAM_SEC_SIZE + 65535) % 65536)) % 65536))
          ((length % SRAM_SEC_SIZE) % 256) M1 with
        | mk st M2 =>
          rw [hres] at hok hc
          cases st with
          | SRAM_ERROR => exact absurd hok error_ne_ok
          | SRAM_OK =>
            dsimp only [restoreGIE] at hc ⊢
            rw [hc, h1]
      · dsimp only [restoreGIE]
        rw [h1, List.append_nil]

/-- C10 (50-byte scenario), amended: a 50-byte run that returns `SRAM_OK` has tested
three full sections and then a remainder of `50 mod 16 = 2` bytes, as a 2-byte short
section at the base of the third full section, `startAddress + 32`. -/
theorem checkerBoard_50_bytes (cfg : Config) (startAddress : Nat) (M : Machine)
    (hfit : startAddress + 50 ≤ 65536)
    (hok : (DIAG_SRAM_CheckerBoard cfg startAddress 50 M).1 = SRAM_OK) :
    50 / SRAM_SEC_SIZE = 3 ∧ 50 % SRAM_SEC_SIZE = 2 ∧
    (DIAG_SRAM_CheckerBoard cfg startAddress 50 M).2.tests =
      M.tests ++ [(startAddress, 16), (startAddress + 16, 16), (startAddress + 32, 16),
        (startAddress + 32, 2)] := by
  refine ⟨by decide, by decide, ?_⟩
  rw [checkerBoard_tests_of_ok cfg startAddress 50 M hok]
  have h0 : ptr startAddress 0 = startAddress := by simp only [ptr]; omega
  have h1 : ptr startAddress 16 = startAddress + 16 := by simp only [ptr]; omega
  have h2 : ptr startAddress 32 = startAddress + 32 := by simp only [ptr]; omega
  simp [SRAM_SEC_SIZE, List.range', h0, h1, h2]

/-- A 50-byte run on the all-zero fault-free machine. -/
theorem checkerBoard_50_bytes_witness :
    50 / SRAM_SEC_SIZE = 3 ∧ 50 % SRAM_SEC_SIZE = 2 ∧
    (DIAG_SRAM_CheckerBoard ram64 0x4000 50 (zeroMachine 0)).2.tests =
      (zeroMachine 0).tests ++ [(0x4000, 16), (0x4000 + 16, 16), (0x4000 + 32, 16),
        (0x4000 + 32, 2)] :=
  checkerBoard_50_bytes ram64 0x4000 (zeroMachine 0) (by decide) (by decide)

/-- C10 as stated fails: in the 50-byte run no 10-byte section is tested at all; the
remainder is 2 bytes. -/
theorem checkerBoard_50_bytes_no_10_byte_section :
    (DIAG_SRAM_CheckerBoard ram64 0x4000 50 (zeroMachine 0)).1 = SRAM_OK ∧
    ¬ (0x4000 + 32, 10) ∈ (DIAG_SRAM_CheckerBoard ram64 0x4000 50 (zeroMachine 0)).2.tests ∧
    50 % SRAM_SEC_SIZE ≠ 10 := by
  decide

set_option maxRecDepth 100000 in
/-- C9 as stated fails: on fault-free memory holding a ramp, with the first tested section
lying across `checkerbrd_buffer` (`0x4010`), the accepted 32-byte run from `0x4018` stops
in the save check of the first section, so only one of the two full sections is tested. -/
theorem checkerBoard_partition_stops_early :
    rampMachine.fault = [] ∧
    (DIAG_SRAM_CheckerBoard ram64 0x4018 32 rampMachine).1 = SRAM_ERROR ∧
    (DIAG_SRAM_CheckerBoard ram64 0x4018 32 rampMachine).2.tests = [(0x4018, 16)] ∧
    (DIAG_SRAM_CheckerBoard ram64 0x4018 32 rampMachine).2.tests ≠
      (List.range (32 / SRAM_SEC_SIZE)).map (fun k => (0x4018 + SRAM_SEC_SIZE * k, SRAM_SEC_SIZE)) := by
  decide

set_option maxRecDepth 100000 in
/-- C1, evaluated at a failing input: the accepted 17-byte run from `0x4020` on the all-zero
fault-free machine returns `SRAM_OK`, yet the byte at `0x4021`, inside the region and outside
`checkerbrd_buffer = [0x4010, 0x4020)`, held `0x00` before and holds `0xAA` afterwards. -/
theorem checkerBoard_odd_length_destroys :
    (zeroMachine 0).fault = [] ∧
    (DIAG_SRAM_CheckerBoard ram64 0x4020 17 (zeroMachine 0)).1 = SRAM_OK ∧
    (zeroMachine 0).mem 0x4021 = 0x00 ∧
    (DIAG_SRAM_CheckerBoard ram64 0x4020 17 (zeroMachine 0)).2.mem 0x4021 = 0xAA ∧
    (DIAG_SRAM_CheckerBoard ram64 0x4020 17 (zeroMachine 0)).2.tests = [(0x4020, 16), (0x4020, 1)] := by
  decide

set_option maxRecDepth 100000 in
/-- C4, evaluated at the scenario of the claim: 64-byte region in four sections, bit 0 of
the byte at offset 37 stuck at 1; `DIAG_SRAM_CheckerBoard` returns `SRAM_OK`. -/
theorem checkerBoard_misses_stuck_bit :
    (DIAG_SRAM_CheckerBoard ram64 0x4000 64 (stuckMachine 0x4025 0 true)).1 = SRAM_OK := by
  decide

set_option maxRecDepth 100000 in
/-- C5, evaluated at a failing input: called with the interrupt flag clear (`SREG = 0`),
an accepted run returns with the interrupt flag set. -/
theorem checkerBoard_enables_interrupts :
    (zeroMachine 0).gie ram64 = false ∧
    (DIAG_SRAM_CheckerBoard ram64 0x4020 16 (zeroMachine 0)).1 = SRAM_OK ∧
    (DIAG_SRAM_CheckerBoard ram64 0x4020 16 (zeroMachine 0)).2.gie ram64 = true ∧
    (DIAG_SRAM_CheckerBoard ram64 0x4020 16 (zeroMachine 0)).2.SREG = 0x80 := by
  decide

set_option maxRecDepth 100000 in
/-- C7, evaluated at the two inputs named in the claim (RAM end is `0x4040`): both calls
are accepted, return `SRAM_OK` and write to memory; the first one writes at and beyond the
RAM end. -/
theorem checkerBoard_accepts_past_end :
    (DIAG_SRAM_CheckerBoard ram64 (0x4040 - 1) SRAM_SEC_SIZE (zeroMachine 0)).1 = SRAM_OK ∧
    0x4040 ∈ writes (DIAG_SRAM_CheckerBoard ram64 (0x4040 - 1) SRAM_SEC_SIZE (zeroMachine 0)).2.log ∧
    0x404E ∈ writes (DIAG_SRAM_CheckerBoard ram64 (0x4040 - 1) SRAM_SEC_SIZE (zeroMachine 0)).2.log ∧
    (DIAG_SRAM_CheckerBoard ram64 0x4040 1 (zeroMachine 0)).1 = SRAM_OK ∧
    writes (DIAG_SRAM_CheckerBoard ram64 0x4040 1 (zeroMachine 0)).2.log ≠ [] := by
  decide

set_option maxRecDepth 100000 in
/-- C8, evaluated at a failing input: in the accepted 50-byte run from `0x4000` the
remainder test `[0x4020, 0x4022)` lies inside the third full section `[0x4020, 0x4030)`,
and the last two bytes of the region, `0x4030` and `0x4031`, are never accessed. -/
theorem checkerBoard_50_bytes_coverage :
    (DIAG_SRAM_CheckerBoard ram64 0x4000 50 (zeroMachine 0)).1 = SRAM_OK ∧
    (DIAG_SRAM_CheckerBoard ram64 0x4000 50 (zeroMachine 0)).2.tests =
      [(0x4000, 16), (0x4010, 16), (0x4020, 16), (0x4020, 2)] ∧
    0x4030 ∉ (DIAG_SRAM_CheckerBoard ram64 0x4000 50 (zeroMachine 0)).2.log.map Access.addr ∧
    0x4031 ∉ (DIAG_SRAM_CheckerBoard ram64 0x4000 50 (zeroMachine 0)).2.log.map Access.addr := by
  decide

/-- C6 (validation rejects without side effects): if `length == 0`,
`length > INTERNAL_SRAM_SIZE`, `startAddress < INTERNAL_SRAM_START` or
`startAddress > INTERNAL_SRAM_START + INTERNAL_SRAM_SIZE`, then `DIAG_SRAM_CheckerBoard`
returns `SRAM_ERROR` and the machine (memory, `SREG`, access log) is the one it was
called on. -/
theorem checkerBoard_rejects_untouched (cfg : Config) (startAddress length : Nat)
    (M : Machine) (hram : cfg.INTERNAL_SRAM_START + cfg.INTERNAL_SRAM_SIZE < 65536)
    (hbad : length = 0 ∨ length > cfg.INTERNAL_SRAM_SIZE ∨
      startAddress < cfg.INTERNAL_SRAM_START ∨
      startAddress > cfg.INTERNAL_SRAM_START + cfg.INTERNAL_SRAM_SIZE) :
    DIAG_SRAM_CheckerBoard cfg startAddress length M = (SRAM_ERROR, M) := by
  apply DIAG_SRAM_CheckerBoard_rejected
  omega

/-- A call that starts one byte below the RAM base is rejected and touches nothing. -/
theorem checkerBoard_rejects_untouched_witness :
    DIAG_SRAM_CheckerBoard ram64 0x3FFF 16 rampMachine = (SRAM_ERROR, rampMachine) :=
  checkerBoard_rejects_untouched ram64 0x3FFF 16 rampMachine (by decide) (by decide)

/-! ## The loops on fault-free memory -/

theorem peek_of_none {M : Machine} (hf : M.fault = []) (a : Nat) : M.peek a = M.mem a := by
  simp [Machine.peek, stuck, force, hf]

theorem ptr_eq {p k : Nat} (h : p + k < 65536) : ptr p k = p + k := Nat.mod_eq_of_lt h

theorem marchStep1_mem (p : Nat) :
    ∀ (n i : Nat) (M : Machine), p + i + n ≤ 65536 →
      ∀ a, (marchStep1 p n i M).mem a = if p + i ≤ a ∧ a < p + i + n then 0 else M.mem a := by
  intro n
  induction n with
  | zero =>
    intro i M _ a
    rw [if_neg (by omega)]
    rfl
  | succ n ih =>
    intro i M hb a
    simp only [marchStep1, ptr_eq (show p + i < 65536 by omega)]
    rw [ih (i + 1) _ (by omega) a]
    simp only [wr]
    split_ifs <;> first | rfl | omega

theorem marchStep2_ok (p : Nat) :
    ∀ (n i : Nat) (M : Machine), M.fault = [] → p + i + n ≤ 65536 →
      (∀ j, i ≤ j → j < i + n → M.mem (p + j) = 0) →
      ∃ R, marchStep2 p n i M = .ok R ∧
        ∀ a, R.mem a = if p + i ≤ a ∧ a < p + i + n then 0xFF else M.mem a := by
  intro n
  induction n with
  | zero =>
    intro i M _ _ _
    exact ⟨M, rfl, fun a => by rw [if_neg (by omega)]⟩
  | succ n ih =>
    intro i M hf hb hpre
    have h0 : M.mem (p + i) = 0 := hpre i (le_refl _) (by omega)
    have e1 : (rd M (p + i)).1 = 0 := by simp [rd, Machine.peek, stuck, force, hf, h0]
    have e2 : (rd (wr (rd M (p + i)).2 (p + i) 0xFF) (p + i)).1 = 0xFF := by
      simp [rd, wr, Machine.peek, stuck, force, hf]
    have e3 : (rd (wr (rd (wr (rd M (p + i)).2 (p + i) 0xFF) (p + i)).2 (p + i) 0x0)
        (p + i)).1 = 0 := by
      simp [rd, wr, Machine.peek, stuck, force, hf]
    simp only [marchStep2, ptr_eq (show p + i < 65536 by omega), e1, e2, e3, ne_eq,
      not_true_eq_false, if_false]
    obtain ⟨R, hR, hmem⟩ := ih (i + 1)
      (wr (rd (wr (rd (wr (rd M (p + i)).2 (p + i) 0xFF) (p + i)).2 (p + i) 0x0)
        (p + i)).2 (p + i) 0xFF) hf (by omega)
      (fun j hj1 hj2 => by
        have := hpre j (by omega) (by omega)
        have hne : p + j ≠ p + i := by omega
        simp [wr, rd, hne, this])
    refine ⟨R, hR, fun a => ?_⟩
    rw [hmem a]
    simp only [wr, rd]
    split_ifs <;> first | rfl | omega

theorem marchStep3_ok (p : Nat) :
    ∀ (n i : Nat) (M : Machine), M.fault = [] → p + i + n ≤ 65536 →
      (∀ j, i ≤ j → j < i + n → M.mem (p + j) = 0xFF) →
      ∃ R, marchStep3 p n i M = .ok R ∧ ∀ a, R.mem a = M.mem a := by
  intro n
  induction n with
  | zero =>
    intro i M _ _ _
    exact ⟨M, rfl, fun a => rfl⟩
  | succ n ih =>
    intro i M hf hb hpre
    have h0 : M.mem (p + i) = 0xFF := hpre i (le_refl _) (by omega)
    have e1 : (rd M (p + i)).1 = 0xFF := by simp [rd, Machine.peek, stuck, force, hf, h0]
    simp only [marchStep3, ptr_eq (show p + i < 65536 by omega), e1, ne_eq,
      not_true_eq_false, if_false]
    obtain ⟨R, hR, hmem⟩ := ih (i + 1)
      (wr (wr (rd M (p + i)).2 (p + i) 0x0) (p + i) 0xFF) hf (by omega)
      (fun j hj1 hj2 => by
        have := hpre j (by omega) (by omega)
        have hne : p + j ≠ p + i := by omega
        simp [wr, rd, hne, this])
    refine ⟨R, hR, fun a => ?_⟩
    rw [hmem a]
    simp only [wr, rd]
    split_ifs with h
    · rw [h, h0]
    · rfl

theorem marchStep4_ok (p : Nat) :
    ∀ (i : Nat) (M : Machine), M.fault = [] → p + i ≤ 65536 →
      (∀ j, j < i → M.mem (p + j) = 0xFF) →
      ∃ R, marchStep4 p i M = .ok R ∧
        ∀ a, R.mem a = if p ≤ a ∧ a < p + i then 0 else M.mem a := by
  intro i
  induction i with
  | zero =>
    intro M _ _ _
    exact ⟨M, rfl, fun a => by rw [if_neg (by omega)]⟩
  | succ i ih =>
    intro M hf hb hpre
    have h0 : M.mem (p + i) = 0xFF := hpre i (by omega)
    have e1 : (rd M (p + i)).1 = 0xFF := by simp [rd, Machine.peek, stuck, force, hf, h0]
    simp only [marchStep4, ptr_eq (show p + i < 65536 by omega), e1, ne_eq,
      not_true_eq_false, if_false]
    obtain ⟨R, hR, hmem⟩ := ih
      (wr (wr (wr (rd M (p + i)).2 (p + i) 0) (p + i) 1) (p + i) 0) hf (by omega)
      (fun j hj => by
        have := hpre j (by omega)
        have hne : p + j ≠ p + i := by omega
        simp [wr, rd, hne, this])
    refine ⟨R, hR, fun a => ?_⟩
    rw [hmem a]
    simp only [wr, rd]
    split_ifs <;> first | rfl | omega

theorem marchStep5_ok (p : Nat) :
    ∀ (i : Nat) (M : Machine), M.fault = [] → p + i ≤ 65536 →
      (∀ j, j < i → M.mem (p + j) = 0) →
      ∃ R, marchStep5 p i M = .ok R ∧ ∀ a, R.mem a = M.mem a := by
  intro i
  induction i with
  | zero =>
    intro M _ _ _
    exact ⟨M, rfl, fun a => rfl⟩
  | succ i ih =>
    intro M hf hb hpre
    have h0 : M.mem (p + i) = 0 := hpre i (by omega)
    have e1 : (rd M (p + i)).1 = 0 := by simp [rd, Machine.peek, stuck, force, hf, h0]
    simp only [marchStep5, ptr_eq (show p + i < 65536 by omega), e1, ne_eq,
      not_true_eq_false, if_false]
    obtain ⟨R, hR, hmem⟩ := ih
      (wr (wr (rd M (p + i)).2 (p + i) 1) (p + i) 0) hf (by omega)
      (fun j hj => by
        have := hpre j (by omega)
        have hne : p + j ≠ p + i := by omega
        simp [wr, rd, hne, this])
    refine ⟨R, hR, fun a => ?_⟩
    rw [hmem a]
    simp only [wr, rd]
    split_ifs with h
    · rw [h, h0]
    · rfl

theorem saveLoop_mem (buf address : Nat) :
    ∀ (n i : Nat) (M : Machine), M.fault = [] →
      address + i + n ≤ 65536 → buf + i + n ≤ 65536 →
      (address + (i + n) ≤ buf ∨ buf + (i + n) ≤ address) →
      ∀ a, (saveLoop buf address n i M).mem a =
        if buf + i ≤ a ∧ a < buf + i + n then M.mem (address + (a - buf)) else M.mem a := by
  intro n
  induction n with
  | zero =>
    intro i M _ _ _ _ a
    rw [if_neg (by omega)]
    rfl
  | succ n ih =>
    intro i M hf ha hb hd a
    simp only [saveLoop, ptr_eq (show address + i < 65536 by omega),
      ptr_eq (show buf + i < 65536 by omega)]
    rw [ih (i + 1) (wr (rd M (address + i)).2 (buf + i) (rd M (address + i)).1) hf
      (by omega) (by omega) (by omega) a]
    simp only [wr, rd, peek_of_none hf]
    split_ifs with h1 h2 h3 h4 h5 <;>
      first
        | rfl
        | omega
        | (subst h5; congr 1; omega)

theorem restoreLoop_mem (buf address : Nat) :
    ∀ (n i : Nat) (M : Machine), M.fault = [] →
      address + i + n ≤ 65536 → buf + i + n ≤ 65536 →
      (address + (i + n) ≤ buf ∨ buf + (i + n) ≤ address) →
      ∀ a, (restoreLoop buf address n i M).mem a =
        if address + i ≤ a ∧ a < address + i + n then M.mem (buf + (a - address))
        else M.mem a := by
  intro n
  induction n with
  | zero =>
    intro i M _ _ _ _ a
    rw [if_neg (by omega)]
    rfl
  | succ n ih =>
    intro i M hf ha hb hd a
    simp only [restoreLoop, ptr_eq (show address + i < 65536 by omega),
      ptr_eq (show buf + i < 65536 by omega)]
    rw [ih (i + 1) (wr (rd M (buf + i)).2 (address + i) (rd M (buf + i)).1) hf
      (by omega) (by omega) (by omega) a]
    simp only [wr, rd, peek_of_none hf]
    split_ifs with h1 h2 h3 h4 h5 <;>
      first
        | rfl
        | omega
        | (subst h5; congr 1; omega)

theorem saveCheck_ok (buf address : Nat) :
    ∀ (n i : Nat) (M : Machine), M.fault = [] →
      address + i + n ≤ 65536 → buf + i + n ≤ 65536 →
      (∀ j, i ≤ j → j < i + n → M.mem (buf + j) = M.mem (address + j)) →
      ∃ R, saveCheck buf address n i M = .ok R ∧ ∀ a, R.mem a = M.mem a := by
  intro n
  induction n with
  | zero =>
    intro i M _ _ _ _
    exact ⟨M, rfl, fun a => rfl⟩
  | succ n ih =>
    intro i M hf ha hb hpre
    have h0 := hpre i (le_refl _) (by omega)
    have e1 : (rd M (buf + i)).1 = (rd (rd M (buf + i)).2 (address + i)).1 := by
      simp [rd, Machine.peek, stuck, force, hf, h0]
    simp only [saveCheck, ptr_eq (show address + i < 65536 by omega),
      ptr_eq (show buf + i < 65536 by omega), e1, ne_eq, not_true_eq_false, if_false]
    exact ih (i + 1) (rd (rd M (buf + i)).2 (address + i)).2 hf (by omega) (by omega)
      (fun j hj1 hj2 => hpre j (by omega) (by omega))

theorem restoreCheck_ok (buf address : Nat) :
    ∀ (n i : Nat) (M : Machine), M.fault = [] →
      address + i + n ≤ 65536 → buf + i + n ≤ 65536 →
      (∀ j, i ≤ j → j < i + n → M.mem (address + j) = M.mem (buf + j)) →
      ∃ R, restoreCheck buf address n i M = .ok R ∧ ∀ a, R.mem a = M.mem a := by
  intro n
  induction n with
  | zero =>
    intro i M _ _ _ _
    exact ⟨M, rfl, fun a => rfl⟩
  | succ n ih =>
    intro i M hf ha hb hpre
    have h0 := hpre i (le_refl _) (by omega)
    have e1 : (rd M (address + i)).1 = (rd (rd M (address + i)).2 (buf + i)).1 := by
      simp [rd, Machine.peek, stuck, force, hf, h0]
    simp only [restoreCheck, ptr_eq (show address + i < 65536 by omega),
      ptr_eq (show buf + i < 65536 by omega), e1, ne_eq, not_true_eq_false, if_false]
    exact ih (i + 1) (rd (rd M (address + i)).2 (buf + i)).2 hf (by omega) (by omega)
      (fun j hj1 hj2 => hpre j (by omega) (by omega))

theorem bind_ok {e : Except Machine Machine} {f : Machine → Except Machine Machine}
    (P : Machine → Prop) {Q : Machine → Prop} (he : ∃ R, e = .ok R ∧ P R)
    (hf : ∀ R, P R → ∃ R1, f R = .ok R1 ∧ Q R1) : ∃ R1, (e >>= f) = .ok R1 ∧ Q R1 := by
  obtain ⟨R, hR, hP⟩ := he
  subst hR
  exact hf R hP

/-- Steps 1 to 5 on a fault-free section end with the section cleared and any
continuation `f` entered. -/
theorem marchSteps_ok (p : Nat) (M1 : Machine) (hf : M1.fault = [])
    (hp : p + SRAM_SEC_SIZE ≤ 65536) (f : Machine → Except Machine Machine)
    (Q : Machine → Prop)
    (hcont : ∀ M5 : Machine, M5.fault = [] →
      (∀ a, M5.mem a = if p ≤ a ∧ a < p + SRAM_SEC_SIZE then 0 else M1.mem a) →
      ∃ R, f M5 = .ok R ∧ Q R) :
    ∃ R, (marchStep2 p SRAM_SEC_SIZE 0 (marchStep1 p SRAM_SEC_SIZE 0 M1) >>= fun M2 =>
      marchStep3 p SRAM_SEC_SIZE 0 M2 >>= fun M3 =>
      marchStep4 p SRAM_SEC_SIZE M3 >>= fun M4 =>
      marchStep5 p SRAM_SEC_SIZE M4 >>= f) = .ok R ∧ Q R := by
  have hm1 := marchStep1_mem p SRAM_SEC_SIZE 0 M1 (by omega)
  have hf1 : (marchStep1 p SRAM_SEC_SIZE 0 M1).fault = [] :=
    (marchStep1_ctl p SRAM_SEC_SIZE 0 M1).1.trans hf
  refine bind_ok (fun M2 => M2.fault = [] ∧
    ∀ a, M2.mem a = if p ≤ a ∧ a < p + SRAM_SEC_SIZE then 0xFF else M1.mem a) ?_ ?_
  · obtain ⟨R, hR, hmem⟩ := marchStep2_ok p SRAM_SEC_SIZE 0 _ hf1 (by omega)
      (fun j _ hj => by rw [hm1]; rw [if_pos (by omega)])
    refine ⟨R, hR, (fault_of_ok (marchStep2_ctl _ _ _ _) hR).trans hf1, fun a => ?_⟩
    rw [hmem a, hm1 a]
    split_ifs <;> first | rfl | omega
  intro M2 ⟨hf2, hm2⟩
  refine bind_ok (fun M3 => M3.fault = [] ∧
    ∀ a, M3.mem a = if p ≤ a ∧ a < p + SRAM_SEC_SIZE then 0xFF else M1.mem a) ?_ ?_
  · obtain ⟨R, hR, hmem⟩ := marchStep3_ok p SRAM_SEC_SIZE 0 M2 hf2 (by omega)
      (fun j _ hj => by rw [hm2]; rw [if_pos (by omega)])
    exact ⟨R, hR, (fault_of_ok (marchStep3_ctl _ _ _ _) hR).trans hf2,
      fun a => by rw [hmem a, hm2 a]⟩
  intro M3 ⟨hf3, hm3⟩
  refine bind_ok (fun M4 => M4.fault = [] ∧
    ∀ a, M4.mem a = if p ≤ a ∧ a < p + SRAM_SEC_SIZE then 0 else M1.mem a) ?_ ?_
  · obtain ⟨R, hR, hmem⟩ := marchStep4_ok p SRAM_SEC_SIZE M3 hf3 (by omega)
      (fun j hj => by rw [hm3]; rw [if_pos (by omega)])
    refine ⟨R, hR, (fault_of_ok (marchStep4_ctl _ _ _) hR).trans hf3, fun a => ?_⟩
    rw [hmem a, hm3 a]
    split_ifs <;> rfl
  intro M4 ⟨hf4, hm4⟩
  refine bind_ok (fun M5 => M5.fault = [] ∧
    ∀ a, M5.mem a = if p ≤ a ∧ a < p + SRAM_SEC_SIZE then 0 else M1.mem a) ?_ ?_
  · obtain ⟨R, hR, hmem⟩ := marchStep5_ok p SRAM_SEC_SIZE M4 hf4 (by omega)
      (fun j hj => by rw [hm4]; rw [if_pos (by omega)])
    exact ⟨R, hR, (fault_of_ok (marchStep5_ctl _ _ _) hR).trans hf4,
      fun a => by rw [hmem a, hm4 a]⟩
  intro M5 ⟨hf5, hm5⟩
  exact hcont M5 hf5 hm5

theorem patternRead_error_iff (address x y : Nat) :
    ∀ (n i : Nat) (M : Machine), (∃ R, patternRead address x y n i M = .error R) ↔
      ∃ j, j < n ∧ M.peek (ptr address (i + 2 * j)) ≠ x ∧
        M.peek (ptr (ptr address (i + 2 * j)) 1) ≠ y := by
  intro n
  induction n with
  | zero =>
    intro i M
    constructor
    · rintro ⟨R, h⟩
      simp [patternRead] at h
    · rintro ⟨j, hj, _⟩
      omega
  | succ n ih =>
    intro i M
    simp only [patternRead, rd_fst]
    by_cases h1 : M.peek (ptr address i) ≠ x
    · by_cases h2 : (rd M (ptr address i)).2.peek (ptr (ptr address i) 1) ≠ y
      · rw [if_pos h1, if_pos h2]
        constructor
        · intro _
          exact ⟨0, by omega, h1, h2⟩
        · intro _
          exact ⟨_, rfl⟩
      · rw [if_pos h1, if_neg h2, ih]
        constructor
        · rintro ⟨j, hj, ha, hb⟩
          refine ⟨j + 1, by omega, ?_, ?_⟩
          · rw [show i + 2 * (j + 1) = i + 2 + 2 * j by omega]
            exact ha
          · rw [show i + 2 * (j + 1) = i + 2 + 2 * j by omega]
            exact hb
        · rintro ⟨j, hj, ha, hb⟩
          cases j with
          | zero => exact absurd hb h2
          | succ j =>
            refine ⟨j, by omega, ?_, ?_⟩
            · rw [show i + 2 + 2 * j = i + 2 * (j + 1) by omega]
              exact ha
            · rw [show i + 2 + 2 * j = i + 2 * (j + 1) by omega]
              exact hb
    · rw [if_neg h1, ih]
      constructor
      · rintro ⟨j, hj, ha, hb⟩
        refine ⟨j + 1, by omega, ?_, ?_⟩
        · rw [show i + 2 * (j + 1) = i + 2 + 2 * j by omega]
          exact ha
        · rw [show i + 2 * (j + 1) = i + 2 + 2 * j by omega]
          exact hb
      · rintro ⟨j, hj, ha, hb⟩
        cases j with
        | zero => exact absurd ha h1
        | succ j =>
          refine ⟨j, by omega, ?_, ?_⟩
          · rw [show i + 2 + 2 * j = i + 2 * (j + 1) by omega]
            exact ha
          · rw [show i + 2 + 2 * j = i + 2 * (j + 1) by omega]
            exact hb

theorem except_ok_or_error (e : Except Machine Machine) :
    (∃ R, e = .ok R) ∨ (∃ R, e = .error R) := by
  cases e with
  | ok R => exact Or.inl ⟨R, rfl⟩
  | error R => exact Or.inr ⟨R, rfl⟩

/-- C16 (pairwise comparison policy): the read-back loop of `checkboardTest` for the pattern
`x, y` (`0xAA, 0x55` and likewise `0x55, 0xAA`) over `size` bytes returns `SRAM_ERROR`
exactly when there is an even offset `i < size` at which byte `i` reads different from `x`
and byte `i + 1` reads different from `y`; if in every pair at most one byte is wrong, the
loop runs to its end without an error. -/
theorem checkboard_pairwise_policy (address x y size : Nat) (M : Machine) :
    ((∃ R, patternRead address x y ((size + 1) / 2) 0 M = .error R) ↔
      ∃ i, i < size ∧ i % 2 = 0 ∧ M.peek (ptr address i) ≠ x ∧
        M.peek (ptr (ptr address i) 1) ≠ y) ∧
    ((∀ i, i < size → i % 2 = 0 → M.peek (ptr address i) = x ∨
        M.peek (ptr (ptr address i) 1) = y) ↔
      ∃ R, patternRead address x y ((size + 1) / 2) 0 M = .ok R) := by
  have key : (∃ R, patternRead address x y ((size + 1) / 2) 0 M = .error R) ↔
      ∃ i, i < size ∧ i % 2 = 0 ∧ M.peek (ptr address i) ≠ x ∧
        M.peek (ptr (ptr address i) 1) ≠ y := by
    rw [patternRead_error_iff]
    constructor
    · rintro ⟨j, hj, ha, hb⟩
      refine ⟨2 * j, by omega, by omega, ?_, ?_⟩
      · simpa using ha
      · simpa using hb
    · rintro ⟨i, hi, he, ha, hb⟩
      refine ⟨i / 2, by omega, ?_, ?_⟩
      · rw [show 0 + 2 * (i / 2) = i by omega]
        exact ha
      · rw [show 0 + 2 * (i / 2) = i by omega]
        exact hb
  refine ⟨key, ?_⟩
  constructor
  · intro hall
    rcases except_ok_or_error (patternRead address x y ((size + 1) / 2) 0 M) with h | h
    · exact h
    · obtain ⟨i, hi, he, ha, hb⟩ := key.mp h
      rcases hall i hi he with h1 | h1
      · exact absurd h1 ha
      · exact absurd h1 hb
  · rintro ⟨R, hR⟩ i hi he
    by_contra hcon
    push_neg at hcon
    obtain ⟨R1, hR1⟩ := key.mpr ⟨i, hi, he, hcon.1, hcon.2⟩
    rw [hR] at hR1
    cases hR1

/-! ## The stored March-B status does not influence a run -/

theorem perOffset_append {α : Type} (l1 l2 : List Nat) (f : Nat → List α) :
    perOffset (l1 ++ l2) f = perOffset l1 f ++ perOffset l2 f := by
  induction l1 with
  | nil => rfl
  | cons i rest ih => simp [perOffset, ih]

theorem perOffset_map {α β : Type} (g : α → β) (l : List Nat) (f : Nat → List α) :
    (perOffset l f).map g = perOffset l (fun i => (f i).map g) := by
  induction l with
  | nil => rfl
  | cons i rest ih => simp [perOffset, ih]

theorem perOffset_reverse_succ {α : Type} (n : Nat) (f : Nat → List α) :
    perOffset (List.range (n + 1)).reverse f = f n ++ perOffset (List.range n).reverse f := by
  rw [List.range_succ, List.reverse_append]
  rfl

theorem marchStep1_log (p : Nat) :
    ∀ (n i : Nat) (M : Machine), p + i + n ≤ 65536 →
      (marchStep1 p n i M).log =
        M.log ++ perOffset (List.range' i n) (fun j => [Access.wr (p + j) 0x00]) := by
  intro n
  induction n with
  | zero => intro i M _; simp [marchStep1, perOffset]
  | succ n ih =>
    intro i M hb
    simp only [marchStep1, ptr_eq (show p + i < 65536 by omega)]
    rw [ih (i + 1) _ (by omega)]
    simp [wr, List.range'_succ, perOffset]

theorem marchStep2_log (p : Nat) :
    ∀ (n i : Nat) (M : Machine), M.fault = [] → p + i + n ≤ 65536 →
      (∀ j, i ≤ j → j < i + n → M.mem (p + j) = 0) →
      (final (marchStep2 p n i M)).log = M.log ++ perOffset (List.range' i n) (fun j =>
        [Access.rd (p + j) 0x00, Access.wr (p + j) 0xFF, Access.rd (p + j) 0xFF,
          Access.wr (p + j) 0x00, Access.rd (p + j) 0x00, Access.wr (p + j) 0xFF]) := by
  intro n
  induction n with
  | zero => intro i M _ _ _; simp [marchStep2, perOffset, final]
  | succ n ih =>
    intro i M hf hb hpre
    have h0 : M.mem (p + i) = 0 := hpre i (le_refl _) (by omega)
    have e1 : (rd M (p + i)).1 = 0 := by simp [rd, Machine.peek, stuck, force, hf, h0]
    have e2 : (rd (wr (rd M (p + i)).2 (p + i) 0xFF) (p + i)).1 = 0xFF := by
      simp [rd, wr, Machine.peek, stuck, force, hf]
    have e3 : (rd (wr (rd (wr (rd M (p + i)).2 (p + i) 0xFF) (p + i)).2 (p + i) 0x0)
        (p + i)).1 = 0 := by
      simp [rd, wr, Machine.peek, stuck, force, hf]
    simp only [marchStep2, ptr_eq (show p + i < 65536 by omega), e1, e2, e3, ne_eq,
      not_true_eq_false, if_false]
    rw [ih (i + 1)
      (wr (rd (wr (rd (wr (rd M (p + i)).2 (p + i) 0xFF) (p + i)).2 (p + i) 0x0)
        (p + i)).2 (p + i) 0xFF) hf (by omega)
      (fun j hj1 hj2 => by
        have := hpre j (by omega) (by omega)
        have hne : p + j ≠ p + i := by omega
        simp [wr, rd, hne, this])]
    simp [wr, rd, Machine.peek, stuck, force, hf, h0, List.range'_succ, perOffset]

theorem marchStep3_log (p : Nat) :
    ∀ (n i : Nat) (M : Machine), M.fault = [] → p + i + n ≤ 65536 →
      (∀ j, i ≤ j → j < i + n → M.mem (p + j) = 0xFF) →
      (final (marchStep3 p n i M)).log = M.log ++ perOffset (List.range' i n) (fun j =>
        [Access.rd (p + j) 0xFF, Access.wr (p + j) 0x00, Access.wr (p + j) 0xFF]) := by
  intro n
  induction n with
  | zero => intro i M _ _ _; simp [marchStep3, perOffset, final]
  | succ n ih =>
    intro i M hf hb hpre
    have h0 : M.mem (p + i) = 0xFF := hpre i (le_refl _) (by omega)
    have e1 : (rd M (p + i)).1 = 0xFF := by simp [rd, Machine.peek, stuck, force, hf, h0]
    simp only [marchStep3, ptr_eq (show p + i < 65536 by omega), e1, ne_eq,
      not_true_eq_false, if_false]
    rw [ih (i + 1) (wr (wr (rd M (p + i)).2 (p + i) 0x0) (p + i) 0xFF) hf (by omega)
      (fun j hj1 hj2 => by
        have := hpre j (by omega) (by omega)
        have hne : p + j ≠ p + i := by omega
        simp [wr, rd, hne, this])]
    simp [wr, rd, Machine.peek, stuck, force, hf, h0, List.range'_succ, perOffset]

theorem marchStep4_log (p : Nat) :
    ∀ (i : Nat) (M : Machine), M.fault = [] → p + i ≤ 65536 →
      (∀ j, j < i → M.mem (p + j) = 0xFF) →
      (final (marchStep4 p i M)).log = M.log ++ perOffset (List.range i).reverse (fun j =>
        [Access.rd (p + j) 0xFF, Access.wr (p + j) 0, Access.wr (p + j) 1,
          Access.wr (p + j) 0]) := by
  intro i
  induction i with
  | zero => intro M _ _ _; simp [marchStep4, perOffset, final]
  | succ i ih =>
    intro M hf hb hpre
    have h0 : M.mem (p + i) = 0xFF := hpre i (by omega)
    have e1 : (rd M (p + i)).1 = 0xFF := by simp [rd, Machine.peek, stuck, force, hf, h0]
    simp only [marchStep4, ptr_eq (show p + i < 65536 by omega), e1, ne_eq,
      not_true_eq_false, if_false]
    rw [ih (wr (wr (wr (rd M (p + i)).2 (p + i) 0) (p + i) 1) (p + i) 0) hf (by omega)
      (fun j hj => by
        have := hpre j (by omega)
        have hne : p + j ≠ p + i := by omega
        simp [wr, rd, hne, this]), perOffset_reverse_succ]
    simp [wr, rd, Machine.peek, stuck, force, hf, h0]

theorem marchStep5_log (p : Nat) :
    ∀ (i : Nat) (M : Machine), M.fault = [] → p + i ≤ 65536 →
      (∀ j, j < i → M.mem (p + j) = 0) →
      (final (marchStep5 p i M)).log = M.log ++ perOffset (List.range i).reverse (fun j =>
        [Access.rd (p + j) 0x00, Access.wr (p + j) 1, Access.wr (p + j) 0]) := by
  intro i
  induction i with
  | zero => intro M _ _ _; simp [marchStep5, perOffset, final]
  | succ i ih =>
    intro M hf hb hpre
    have h0 : M.mem (p + i) = 0 := hpre i (by omega)
    have e1 : (rd M (p + i)).1 = 0 := by simp [rd, Machine.peek, stuck, force, hf, h0]
    simp only [marchStep5, ptr_eq (show p + i < 65536 by omega), e1, ne_eq,
      not_true_eq_false, if_false]
    rw [ih (wr (wr (rd M (p + i)).2 (p + i) 1) (p + i) 0) hf (by omega)
      (fun j hj => by
        have := hpre j (by omega)
        have hne : p + j ≠ p + i := by omega
        simp [wr, rd, hne, this]), perOffset_reverse_succ]
    simp [wr, rd, Machine.peek, stuck, force, hf, h0]

theorem final_ok {e : Except Machine Machine} {R : Machine} (h : e = .ok R) : final e = R := by
  subst h
  rfl

/-- C14, amended: step 3 of `DIAG_SRAM_MarchB` (r1, w0, w1) traverses the byte positions of
the section in ascending address order, offset 0 first and offset `SRAM_SEC_SIZE - 1` last,
as the comment in `diag_sram_marchb.c` says. -/
theorem marchB_step3_ascending (p : Nat) (M : Machine) (hf : M.fault = [])
    (hp : p + SRAM_SEC_SIZE ≤ 65536)
    (hpre : ∀ j, j < SRAM_SEC_SIZE → M.mem (p + j) = 0xFF) :
    ∃ R, marchStep3 p SRAM_SEC_SIZE 0 M = .ok R ∧
      R.log = M.log ++ perOffset (List.range SRAM_SEC_SIZE) (fun j =>
        [Access.rd (p + j) 0xFF, Access.wr (p + j) 0x00, Access.wr (p + j) 0xFF]) := by
  obtain ⟨R, hR, _⟩ := marchStep3_ok p SRAM_SEC_SIZE 0 M hf (by omega)
    (fun j _ hj => hpre j (by omega))
  have hl := marchStep3_log p SRAM_SEC_SIZE 0 M hf (by omega) (fun j _ hj => hpre j (by omega))
  rw [final_ok hR] at hl
  exact ⟨R, hR, by rw [hl, List.range_eq_range']⟩

/-- Step 3 on a section whose cells all hold `0xFF`. -/
theorem marchB_step3_ascending_witness :
    ∃ R, marchStep3 0x4020 SRAM_SEC_SIZE 0 ffMachine = .ok R ∧
      R.log = ffMachine.log ++ perOffset (List.range SRAM_SEC_SIZE) (fun j =>
        [Access.rd (0x4020 + j) 0xFF, Access.wr (0x4020 + j) 0x00,
          Access.wr (0x4020 + j) 0xFF]) :=
  marchB_step3_ascending 0x4020 ffMachine rfl (by decide) (fun _ _ => rfl)

/-- C14 as stated fails: step 3 on the section at `0x4020` starts at the lowest address and
ends at the highest one; the addresses it visits are not in descending order. -/
theorem marchB_step3_not_descending :
    ((final (marchStep3 0x4020 SRAM_SEC_SIZE 0 ffMachine)).log.map Access.addr).head? =
      some 0x4020 ∧
    ((final (marchStep3 0x4020 SRAM_SEC_SIZE 0 ffMachine)).log.map Access.addr).getLast? =
      some 0x402F ∧
    ¬ ((final (marchStep3 0x4020 SRAM_SEC_SIZE 0 ffMachine)).log.map Access.addr).Pairwise
      (fun a b => a ≥ b) := by
  decide

set_option maxRecDepth 100000 in
/-- C19, evaluated on the section at `0x4020` of the fault-free all-zero 64-byte RAM: the
section test passes, and the byte at `0x4025` is written `0xFF` three times only (twice in
step 2, once in step 3), while the "write 1" of steps 4 and 5 stores `0x01` (twice): in
steps 4 and 5 the bits 1 to 7 of the byte are never driven from 0 to 1. -/
theorem marchB_steps_4_5_write_one :
    isOk (marchSection ram64 0x4020 (zeroMachine 0)) = true ∧
    List.count (Access.wr 0x4025 0xFF)
      (final (marchSection ram64 0x4020 (zeroMachine 0))).log = 3 ∧
    List.count (Access.wr 0x4025 1)
      (final (marchSection ram64 0x4020 (zeroMachine 0))).log = 2 ∧
    (final (marchStep4 0x4020 SRAM_SEC_SIZE ffMachine)).log.take 4 =
      [Access.rd 0x402F 0xFF, Access.wr 0x402F 0, Access.wr 0x402F 1, Access.wr 0x402F 0] ∧
    (final (marchStep5 0x4020 SRAM_SEC_SIZE (zeroMachine 0))).log.take 3 =
      [Access.rd 0x402F 0, Access.wr 0x402F 1, Access.wr 0x402F 0] := by
  decide

/-! ## Early returns -/

theorem patternRead_error_log (address x y : Nat) :
    ∀ (n i : Nat) (M R : Machine), patternRead address x y n i M = .error R →
      ∃ L a v, R.log = L ++ [Access.rd a v] := by
  intro n
  induction n with
  | zero => intro i M R h; simp [patternRead] at h
  | succ n ih =>
    intro i M R h
    simp only [patternRead] at h
    split at h
    · split at h
      · simp only [Except.error.injEq] at h
        subst h
        exact ⟨_, _, _, rfl⟩
      · exact ih _ _ _ h
    · exact ih _ _ _ h

theorem checkboardTest_eq (cfg : Config) (address size : Nat) (M : Machine) :
    checkboardTest cfg address size M =
      statusOf (checkboardSaved cfg address size
          { M with tests := M.tests ++ [(address, size)] } >>= fun M1 =>
        patternRead address 0xAA 0x55 ((size + 1) / 2) 0
          (patternWrite address 0xAA 0x55 ((size + 1) / 2) 0 M1) >>= fun M2 =>
        patternRead address 0x55 0xAA ((size + 1) / 2) 0
          (patternWrite address 0x55 0xAA ((size + 1) / 2) 0 M2) >>= fun M3 =>
        checkboardRestored cfg address size M3) := by
  unfold checkboardTest checkboardSaved checkboardRestored
  dsimp only
  split <;> rename_i h <;> rw [h] <;> rfl

theorem patternWrite_mem (address x y : Nat) :
    ∀ (n i : Nat) (M : Machine), address + i + 2 * n ≤ 65536 →
      ∀ a, (patternWrite address x y n i M).mem a =
        if address + i ≤ a ∧ a < address + i + 2 * n then
          (if (a - (address + i)) % 2 = 0 then x else y)
        else M.mem a := by
  intro n
  induction n with
  | zero =>
    intro i M _ a
    rw [if_neg (by omega)]
    rfl
  | succ n ih =>
    intro i M hb a
    have h1 : ptr address i = address + i := ptr_eq (by omega)
    have h2 : ptr (address + i) 1 = address + i + 1 := ptr_eq (by omega)
    simp only [patternWrite, h1, h2]
    rw [ih (i + 2) _ (by omega) a]
    simp only [wr]
    split_ifs <;> first | rfl | omega

theorem patternRead_ok (address x y : Nat) :
    ∀ (n i : Nat) (M : Machine), M.fault = [] → address + i + 2 * n ≤ 65536 →
      (∀ j, j < n → M.mem (address + i + 2 * j) = x) →
      ∃ R, patternRead address x y n i M = .ok R ∧ ∀ a, R.mem a = M.mem a := by
  intro n
  induction n with
  | zero =>
    intro i M _ _ _
    exact ⟨M, rfl, fun a => rfl⟩
  | succ n ih =>
    intro i M hf hb hpre
    have h1 : ptr address i = address + i := ptr_eq (by omega)
    have h0 : M.mem (address + i) = x := hpre 0 (by omega)
    have e1 : (rd M (address + i)).1 = x := by
      simp [rd, Machine.peek, stuck, force, hf, h0]
    simp only [patternRead, h1, e1, ne_eq, not_true_eq_false, if_false]
    exact ih (i + 2) (rd M (address + i)).2 hf (by omega)
      (fun j hj => by
        have := hpre (j + 1) (by omega)
        rw [show address + (i + 2) + 2 * j = address + i + 2 * (j + 1) by omega]
        exact this)

/-- The two pattern passes of `checkboardTest` on fault-free memory: both read-backs pass
and the `patternWidth size` bytes at `address` are left holding `0x55, 0xAA, ...`. -/
theorem patterns_ok (address size : Nat) (M1 : Machine) (hf : M1.fault = [])
    (hp : address + patternWidth size ≤ 65536) (f : Machine → Except Machine Machine)
    (Q : Machine → Prop)
    (hcont : ∀ M3 : Machine, M3.fault = [] →
      (∀ a, M3.mem a = if address ≤ a ∧ a < address + patternWidth size then
        (if (a - address) % 2 = 0 then 0x55 else 0xAA) else M1.mem a) →
      ∃ R, f M3 = .ok R ∧ Q R) :
    ∃ R, (patternRead address 0xAA 0x55 ((size + 1) / 2) 0
          (patternWrite address 0xAA 0x55 ((size + 1) / 2) 0 M1) >>= fun M2 =>
        patternRead address 0x55 0xAA ((size + 1) / 2) 0
          (patternWrite address 0x55 0xAA ((size + 1) / 2) 0 M2) >>= f) = .ok R ∧ Q R := by
  have hw : patternWidth size = 2 * ((size + 1) / 2) := rfl
  have hm1 := patternWrite_mem address 0xAA 0x55 ((size + 1) / 2) 0 M1 (by omega)
  have hf1 : (patternWrite address 0xAA 0x55 ((size + 1) / 2) 0 M1).fault = [] :=
    (patternWrite_ctl _ _ _ _ _ _).1.trans hf
  refine bind_ok (fun M2 => M2.fault = [] ∧
    ∀ a, M2.mem a = (patternWrite address 0xAA 0x55 ((size + 1) / 2) 0 M1).mem a) ?_ ?_
  · obtain ⟨R, hR, hmem⟩ := patternRead_ok address 0xAA 0x55 ((size + 1) / 2) 0 _ hf1
      (by omega) (fun j hj => by
        rw [hm1, if_pos (by omega), if_pos (by omega)])
    exact ⟨R, hR, (fault_of_ok (patternRead_ctl _ _ _ _ _ _) hR).trans hf1, hmem⟩
  intro M2 ⟨hf2, hm2⟩
  have hm3 := patternWrite_mem address 0x55 0xAA ((size + 1) / 2) 0 M2 (by omega)
  have hf3 : (patternWrite address 0x55 0xAA ((size + 1) / 2) 0 M2).fault = [] :=
    (patternWrite_ctl _ _ _ _ _ _).1.trans hf2
  refine bind_ok (fun M3 => M3.fault = [] ∧
    ∀ a, M3.mem a = (patternWrite address 0x55 0xAA ((size + 1) / 2) 0 M2).mem a) ?_ ?_
  · obtain ⟨R, hR, hmem⟩ := patternRead_ok address 0x55 0xAA ((size + 1) / 2) 0 _ hf3
      (by omega) (fun j hj => by
        rw [hm3, if_pos (by omega), if_pos (by omega)])
    exact ⟨R, hR, (fault_of_ok (patternRead_ctl _ _ _ _ _ _) hR).trans hf3, hmem⟩
  intro M3 ⟨hf3', hm3'⟩
  refine hcont M3 hf3' (fun a => ?_)
  rw [hm3' a, hm3 a, hm2 a, hm1 a, hw]
  simp only [Nat.add_zero]
  split_ifs <;> rfl

/-- A section test on fault-free memory, for a section that is the buffer itself or does
not overlap it: the test passes and leaves the memory `afterTest` describes. -/
theorem checkboardTest_ok (cfg : Config) (address size : Nat) (M : Machine)
    (hf : M.fault = []) (hp : address + patternWidth size ≤ 65536)
    (hb : checkerbrd_buffer cfg + size ≤ 65536)
    (hd : address = checkerbrd_buffer cfg ∨
      address + patternWidth size ≤ checkerbrd_buffer cfg ∨
      checkerbrd_buffer cfg + size ≤ address) :
    ∃ R, checkboardTest cfg address size M = (SRAM_OK, R) ∧ R.fault = [] ∧
      ∀ a, R.mem a = afterTest (checkerbrd_buffer cfg) address size M.mem a := by
  have hw : patternWidth size = 2 * ((size + 1) / 2) := rfl
  have key : ∃ R, (checkboardSaved cfg address size
        { M with tests := M.tests ++ [(address, size)] } >>= fun M1 =>
      patternRead address 0xAA 0x55 ((size + 1) / 2) 0
        (patternWrite address 0xAA 0x55 ((size + 1) / 2) 0 M1) >>= fun M2 =>
      patternRead address 0x55 0xAA ((size + 1) / 2) 0
        (patternWrite address 0x55 0xAA ((size + 1) / 2) 0 M2) >>= fun M3 =>
      checkboardRestored cfg address size M3) = .ok R ∧ (R.fault = [] ∧
      ∀ a, R.mem a = afterTest (checkerbrd_buffer cfg) address size M.mem a) := by
    unfold checkboardSaved checkboardRestored
    by_cases hab : address = checkerbrd_buffer cfg
    · simp only [ne_eq, hab, not_true_eq_false, if_false]
      refine patterns_ok (checkerbrd_buffer cfg) size
        { M with tests := M.tests ++ [(checkerbrd_buffer cfg, size)] } hf (by omega) _ _
        (fun M3 hf3 hm3 => ?_)
      refine ⟨M3, rfl, hf3, fun a => ?_⟩
      rw [hm3 a]
      simp only [afterTest, if_true]
    · have hd2 : address + patternWidth size ≤ checkerbrd_buffer cfg ∨
          checkerbrd_buffer cfg + size ≤ address := by
        rcases hd with h | h
        · exact absurd h hab
        · exact h
      simp only [ne_eq, hab, not_false_eq_true, if_true]
      have hsl := saveLoop_mem (checkerbrd_buffer cfg) address size 0
        { M with tests := M.tests ++ [(address, size)] } hf (by omega) (by omega) (by omega)
      have hfs : (saveLoop (checkerbrd_buffer cfg) address size 0
          { M with tests := M.tests ++ [(address, size)] }).fault = [] :=
        (saveLoop_ctl _ _ _ _ _).1.trans hf
      refine bind_ok (fun M1 => M1.fault = [] ∧ ∀ a, M1.mem a =
        if checkerbrd_buffer cfg ≤ a ∧ a < checkerbrd_buffer cfg + size then
          M.mem (address + (a - checkerbrd_buffer cfg)) else M.mem a) ?_ ?_
      · obtain ⟨R, hR, hmem⟩ := saveCheck_ok (checkerbrd_buffer cfg) address size 0 _ hfs
          (by omega) (by omega)
          (fun j _ hj => by
            rw [hsl, hsl, if_pos (by omega), if_neg (by omega)]
            congr 1
            omega)
        refine ⟨R, hR, (fault_of_ok (saveCheck_ctl _ _ _ _ _) hR).trans hfs, fun a => ?_⟩
        rw [hmem a, hsl a]
        split_ifs <;> first | rfl | omega
      intro M1 ⟨hf1, hm1⟩
      refine patterns_ok address size M1 hf1 hp _ _ (fun M3 hf3 hm3 => ?_)
      have hrl := restoreLoop_mem (checkerbrd_buffer cfg) address size 0 M3 hf3 (by omega)
        (by omega) (by omega)
      have hfr : (restoreLoop (checkerbrd_buffer cfg) address size 0 M3).fault = [] :=
        (restoreLoop_ctl _ _ _ _ _).1.trans hf3
      obtain ⟨R, hR, hmem⟩ := restoreCheck_ok (checkerbrd_buffer cfg) address size 0 _ hfr
        (by omega) (by omega)
        (fun j _ hj => by
          rw [hrl, hrl, if_pos (by omega), if_neg (by omega)]
          congr 1
          omega)
      refine ⟨R, hR, (fault_of_ok (restoreCheck_ctl _ _ _ _ _) hR).trans hfr, fun a => ?_⟩
      rw [hmem a, hrl a]
      simp only [afterTest, if_neg hab]
      split_ifs with h1 h2 h3 h4
      · omega
      · omega
      · rw [hm3, if_neg (by omega), hm1, if_pos (by omega)]
        congr 1
        omega
      · rw [hm3 a, if_neg (by omega), hm1 a, if_pos (by omega)]
      · rw [hm3 a, if_pos (by omega)]
        rw [if_neg (by omega)]
      · rw [hm3 a, if_neg (by omega), hm1 a, if_neg (by omega)]
  obtain ⟨R, hR, hfR, hmem⟩ := key
  refine ⟨R, ?_, hfR, hmem⟩
  rw [checkboardTest_eq, hR]
  rfl

/-! ## The full-section loop of `DIAG_SRAM_CheckerBoard` on fault-free memory -/

theorem checkerSections_ok (cfg : Config) (startAddress : Nat)
    (hb : checkerbrd_buffer cfg + SRAM_SEC_SIZE ≤ 65536) :
    ∀ (n nSec : Nat) (M : Machine), M.fault = [] →
      startAddress + SRAM_SEC_SIZE * (nSec + n) ≤ 65536 →
      (∀ k, nSec ≤ k → k < nSec + n →
        startAddress + SRAM_SEC_SIZE * k = checkerbrd_buffer cfg ∨
        startAddress + SRAM_SEC_SIZE * k + SRAM_SEC_SIZE ≤ checkerbrd_buffer cfg ∨
        checkerbrd_buffer cfg + SRAM_SEC_SIZE ≤ startAddress + SRAM_SEC_SIZE * k) →
      ∃ R, checkerSections cfg startAddress n nSec M = .ok R ∧ R.fault = [] ∧
        R.mem = afterSections (checkerbrd_buffer cfg) startAddress n nSec M.mem := by
  intro n
  induction n with
  | zero =>
    intro nSec M hf _ _
    exact ⟨M, rfl, hf, rfl⟩
  | succ n ih =>
    intro nSec M hf hfit hsec
    have h16 : SRAM_SEC_SIZE = 16 := rfl
    have hw : patternWidth SRAM_SEC_SIZE = 16 := rfl
    have hp : ptr startAddress ((SRAM_SEC_SIZE * nSec) % 65536) =
        startAddress + SRAM_SEC_SIZE * nSec := by
      simp only [ptr, h16] at hfit ⊢
      omega
    have hbound : startAddress + SRAM_SEC_SIZE * nSec + patternWidth SRAM_SEC_SIZE
        ≤ 65536 := by
      rw [hw]
      rw [h16] at hfit ⊢
      omega
    have hdis : startAddress + SRAM_SEC_SIZE * nSec = checkerbrd_buffer cfg ∨
        startAddress + SRAM_SEC_SIZE * nSec + patternWidth SRAM_SEC_SIZE
          ≤ checkerbrd_buffer cfg ∨
        checkerbrd_buffer cfg + SRAM_SEC_SIZE ≤ startAddress + SRAM_SEC_SIZE * nSec := by
      have := hsec nSec (le_refl _) (by omega)
      rw [hw]
      rw [h16] at this ⊢
      omega
    obtain ⟨R1, hR1, hf1, hm1⟩ := checkboardTest_ok cfg
      (startAddress + SRAM_SEC_SIZE * nSec) SRAM_SEC_SIZE M hf hbound hb hdis
    obtain ⟨R, hR, hfR, hmR⟩ := ih (nSec + 1) R1 hf1 (by rw [h16] at hfit ⊢; omega)
      (fun k hk1 hk2 => hsec k (by omega) (by omega))
    refine ⟨R, ?_, hfR, ?_⟩
    · simp only [checkerSections, hp, hR1]
      exact hR
    · rw [hmR, funext hm1]
      rfl

theorem afterTest_frame16 (buf p : Nat) (m : Nat → Nat) (a : Nat)
    (ha : ¬ (buf ≤ a ∧ a < buf + SRAM_SEC_SIZE)) :
    afterTest buf p SRAM_SEC_SIZE m a = m a := by
  have h16 : SRAM_SEC_SIZE = 16 := rfl
  have hw : patternWidth SRAM_SEC_SIZE = 16 := rfl
  simp only [afterTest, hw]
  rw [h16] at ha ⊢
  split_ifs <;> first | rfl | omega

theorem afterTest_rel16 (buf p : Nat) (m m1 : Nat → Nat)
    (hd : p = buf ∨ p + SRAM_SEC_SIZE ≤ buf ∨ buf + SRAM_SEC_SIZE ≤ p)
    (h : ∀ a, ¬ (buf ≤ a ∧ a < buf + SRAM_SEC_SIZE) → m a = m1 a) :
    afterTest buf p SRAM_SEC_SIZE m = afterTest buf p SRAM_SEC_SIZE m1 := by
  have h16 : SRAM_SEC_SIZE = 16 := rfl
  have hw : patternWidth SRAM_SEC_SIZE = 16 := rfl
  funext a
  simp only [afterTest, hw]
  rw [h16] at hd h ⊢
  split_ifs <;> first | rfl | omega | (apply h; omega)

theorem afterSections_frame (buf startAddress : Nat) :
    ∀ (n nSec : Nat) (m : Nat → Nat) (a : Nat),
      (∀ k, nSec ≤ k → k < nSec + n →
        startAddress + SRAM_SEC_SIZE * k = buf ∨
        startAddress + SRAM_SEC_SIZE * k + SRAM_SEC_SIZE ≤ buf ∨
        buf + SRAM_SEC_SIZE ≤ startAddress + SRAM_SEC_SIZE * k) →
      ¬ (buf ≤ a ∧ a < buf + SRAM_SEC_SIZE) →
      afterSections buf startAddress n nSec m a = m a := by
  intro n
  induction n with
  | zero => intro nSec m a _ _; rfl
  | succ n ih =>
    intro nSec m a hsec ha
    simp only [afterSections]
    rw [ih (nSec + 1) _ a (fun k hk1 hk2 => hsec k (by omega) (by omega)) ha]
    exact afterTest_frame16 buf _ m a ha

theorem afterSections_idem (buf startAddress : Nat) (n : Nat) (m : Nat → Nat) (hn : 0 < n)
    (hsec : ∀ k, 0 ≤ k → k < 0 + n →
      startAddress + SRAM_SEC_SIZE * k = buf ∨
      startAddress + SRAM_SEC_SIZE * k + SRAM_SEC_SIZE ≤ buf ∨
      buf + SRAM_SEC_SIZE ≤ startAddress + SRAM_SEC_SIZE * k) :
    afterSections buf startAddress n 0 (afterSections buf startAddress n 0 m) =
      afterSections buf startAddress n 0 m := by
  cases n with
  | zero => omega
  | succ n =>
    have hrel : afterTest buf (startAddress + SRAM_SEC_SIZE * 0) SRAM_SEC_SIZE
          (afterSections buf startAddress (n + 1) 0 m) =
        afterTest buf (startAddress + SRAM_SEC_SIZE * 0) SRAM_SEC_SIZE m :=
      afterTest_rel16 buf _ _ _ (hsec 0 (le_refl _) (by omega))
        (fun a ha => afterSections_frame buf startAddress (n + 1) 0 m a hsec ha)
    conv_lhs => rw [afterSections, hrel]
    rfl

/-- The full scan `DIAG_SRAM_CheckerBoard(INTERNAL_SRAM_START, INTERNAL_SRAM_SIZE)` of a RAM
made of whole sections, on fault-free memory, with `checkerbrd_buffer` on a section slot of
the RAM or clear of it. -/
theorem checkerBoard_full_scan (cfg : Config) (M : Machine) (hf : M.fault = [])
    (hsize : 0 < cfg.INTERNAL_SRAM_SIZE)
    (hmul : cfg.INTERNAL_SRAM_SIZE % SRAM_SEC_SIZE = 0)
    (hfit : cfg.INTERNAL_SRAM_START + cfg.INTERNAL_SRAM_SIZE < 65536)
    (hbuf : (∃ k, k < cfg.INTERNAL_SRAM_SIZE / SRAM_SEC_SIZE ∧
        checkerbrd_buffer cfg = cfg.INTERNAL_SRAM_START + SRAM_SEC_SIZE * k) ∨
      checkerbrd_buffer cfg + SRAM_SEC_SIZE ≤ cfg.INTERNAL_SRAM_START ∨
      (cfg.INTERNAL_SRAM_START + cfg.INTERNAL_SRAM_SIZE ≤ checkerbrd_buffer cfg ∧
        checkerbrd_buffer cfg + SRAM_SEC_SIZE ≤ 65536)) :
    ∃ R, DIAG_SRAM_CheckerBoard cfg cfg.INTERNAL_SRAM_START cfg.INTERNAL_SRAM_SIZE M
        = (SRAM_OK, R) ∧ R.fault = [] ∧
      R.mem = afterSections (checkerbrd_buffer cfg) cfg.INTERNAL_SRAM_START
        (cfg.INTERNAL_SRAM_SIZE / SRAM_SEC_SIZE) 0 M.mem := by
  have h16 : SRAM_SEC_SIZE = 16 := rfl
  have hb : checkerbrd_buffer cfg + SRAM_SEC_SIZE ≤ 65536 := by
    rcases hbuf with ⟨k, hk, he⟩ | h | h
    · rw [h16] at hk he hmul ⊢
      omega
    · omega
    · exact h.2
  have hacc : ¬ (cfg.INTERNAL_SRAM_START < cfg.INTERNAL_SRAM_START % 65536 ∨
      cfg.INTERNAL_SRAM_START > (cfg.INTERNAL_SRAM_START + cfg.INTERNAL_SRAM_SIZE) % 65536 ∨
      cfg.INTERNAL_SRAM_SIZE = 0 ∨ cfg.INTERNAL_SRAM_SIZE > cfg.INTERNAL_SRAM_SIZE) := by
    omega
  obtain ⟨R, hR, hfR, hmR⟩ := checkerSections_ok cfg cfg.INTERNAL_SRAM_START hb
    (cfg.INTERNAL_SRAM_SIZE / SRAM_SEC_SIZE) 0
    { M with SREG := M.SREG &&& (255 - cfg.CPU_I_bm % 256) } hf
    (by rw [h16] at hmul ⊢; omega)
    (fun k _ hk => by
      rw [h16] at hmul hk ⊢
      rcases hbuf with ⟨k0, hk0, he⟩ | h | h
      · rw [h16] at hk0 he
        omega
      · rw [h16] at h
        omega
      · rw [h16] at h
        omega)
  have hrem : ¬ ((cfg.INTERNAL_SRAM_SIZE % SRAM_SEC_SIZE) % 256 ≠ 0) := by
    rw [hmul]
    decide
  refine ⟨restoreGIE cfg (if (M.SREG ||| cfg.CPU_I_bm) ≠ 0 then 1 else 0) R, ?_, hfR, hmR⟩
  rw [DIAG_SRAM_CheckerBoard_accepted cfg _ _ M hacc, hR]
  dsimp only
  rw [if_neg hrem]

/-- C11 (idempotence of the full Checkerboard scan): on fault-free memory, for every initial
memory content, two successive calls
`DIAG_SRAM_CheckerBoard(INTERNAL_SRAM_START, INTERNAL_SRAM_SIZE)` both return `SRAM_OK`, and
every cell, those of `checkerbrd_buffer` included, holds after the second call what it held
after the first one. -/
theorem checkerBoard_full_scan_idempotent (cfg : Config) (M : Machine) (hf : M.fault = [])
    (hsize : 0 < cfg.INTERNAL_SRAM_SIZE)
    (hmul : cfg.INTERNAL_SRAM_SIZE % SRAM_SEC_SIZE = 0)
    (hfit : cfg.INTERNAL_SRAM_START + cfg.INTERNAL_SRAM_SIZE < 65536)
    (hbuf : (∃ k, k < cfg.INTERNAL_SRAM_SIZE / SRAM_SEC_SIZE ∧
        checkerbrd_buffer cfg = cfg.INTERNAL_SRAM_START + SRAM_SEC_SIZE * k) ∨
      checkerbrd_buffer cfg + SRAM_SEC_SIZE ≤ cfg.INTERNAL_SRAM_START ∨
      (cfg.INTERNAL_SRAM_START + cfg.INTERNAL_SRAM_SIZE ≤ checkerbrd_buffer cfg ∧
        checkerbrd_buffer cfg + SRAM_SEC_SIZE ≤ 65536)) :
    (DIAG_SRAM_CheckerBoard cfg cfg.INTERNAL_SRAM_START cfg.INTERNAL_SRAM_SIZE M).1
      = SRAM_OK ∧
    (DIAG_SRAM_CheckerBoard cfg cfg.INTERNAL_SRAM_START cfg.INTERNAL_SRAM_SIZE
      (DIAG_SRAM_CheckerBoard cfg cfg.INTERNAL_SRAM_START cfg.INTERNAL_SRAM_SIZE M).2).1
      = SRAM_OK ∧
    ∀ a, (DIAG_SRAM_CheckerBoard cfg cfg.INTERNAL_SRAM_START cfg.INTERNAL_SRAM_SIZE
      (DIAG_SRAM_CheckerBoard cfg cfg.INTERNAL_SRAM_START cfg.INTERNAL_SRAM_SIZE M).2).2.mem a
      = (DIAG_SRAM_CheckerBoard cfg cfg.INTERNAL_SRAM_START cfg.INTERNAL_SRAM_SIZE M).2.mem a
    := by
  have h16 : SRAM_SEC_SIZE = 16 := rfl
  obtain ⟨R1, h1, hf1, hm1⟩ := checkerBoard_full_scan cfg M hf hsize hmul hfit hbuf
  obtain ⟨R2, h2, _, hm2⟩ := checkerBoard_full_scan cfg R1 hf1 hsize hmul hfit hbuf
  rw [h1]
  dsimp only
  rw [h2]
  refine ⟨rfl, rfl, fun a => ?_⟩
  dsimp only
  rw [hm2, hm1, afterSections_idem _ _ _ _ (by rw [h16] at hmul ⊢; omega)
    (fun k _ hk => by
      rw [h16] at hmul hk ⊢
      rcases hbuf with ⟨k0, hk0, he⟩ | h | h
      · rw [h16] at hk0 he
        omega
      · rw [h16] at h
        omega
      · rw [h16] at h
        omega)]

/-- The 64-byte RAM with `checkerbrd_buffer` in section 1, on memory holding a ramp. -/
theorem checkerBoard_full_scan_idempotent_witness :
    (DIAG_SRAM_CheckerBoard ram64 ram64.INTERNAL_SRAM_START ram64.INTERNAL_SRAM_SIZE
      rampMachine).1 = SRAM_OK ∧
    (DIAG_SRAM_CheckerBoard ram64 ram64.INTERNAL_SRAM_START ram64.INTERNAL_SRAM_SIZE
      (DIAG_SRAM_CheckerBoard ram64 ram64.INTERNAL_SRAM_START ram64.INTERNAL_SRAM_SIZE
        rampMachine).2).1 = SRAM_OK ∧
    ∀ a, (DIAG_SRAM_CheckerBoard ram64 ram64.INTERNAL_SRAM_START ram64.INTERNAL_SRAM_SIZE
      (DIAG_SRAM_CheckerBoard ram64 ram64.INTERNAL_SRAM_START ram64.INTERNAL_SRAM_SIZE
        rampMachine).2).2.mem a
      = (DIAG_SRAM_CheckerBoard ram64 ram64.INTERNAL_SRAM_START ram64.INTERNAL_SRAM_SIZE
        rampMachine).2.mem a :=
  checkerBoard_full_scan_idempotent ram64 rampMachine rfl (by decide) (by decide)
    (by decide) (Or.inl ⟨1, by decide, by decide⟩)

/-! ## The section that is the scratch buffer itself -/

theorem except_pure_bind (x : Machine) (f : Machine → Except Machine Machine) :
    ((pure x : Except Machine Machine) >>= f) = f x := rfl

theorem except_bind_pure (e : Except Machine Machine) :
    (e >>= fun M => (pure M : Except Machine Machine)) = e := by
  cases e <;> rfl

/-- One section of `DIAG_SRAM_MarchB` on fault-free memory, with the memory it leaves: the
buffer's own section is left cleared; after any other section the buffer holds the content
of that section and everything else is as before. -/
theorem marchSection_mem (cfg : Config) (p : Nat) (M : Machine) (hf : M.fault = [])
    (hp : p + SRAM_SEC_SIZE ≤ 65536) (hb : march_buffer cfg + SRAM_SEC_SIZE ≤ 65536)
    (hd : p = march_buffer cfg ∨ p + SRAM_SEC_SIZE ≤ march_buffer cfg ∨
      march_buffer cfg + SRAM_SEC_SIZE ≤ p) :
    ∃ R, marchSection cfg p M = .ok R ∧ R.fault = [] ∧
      ∀ a, R.mem a =
        if p = march_buffer cfg then
          (if p ≤ a ∧ a < p + SRAM_SEC_SIZE then 0 else M.mem a)
        else if march_buffer cfg ≤ a ∧ a < march_buffer cfg + SRAM_SEC_SIZE then
          M.mem (p + (a - march_buffer cfg))
        else M.mem a := by
  unfold marchSection
  by_cases hpb : p = march_buffer cfg
  · simp only [ne_eq, hpb, not_true_eq_false, if_false, if_true]
    refine marchSteps_ok (march_buffer cfg) M hf hb _ _ (fun M5 hf5 hm5 => ?_)
    exact ⟨M5, rfl, hf5, hm5⟩
  · have hd2 : p + SRAM_SEC_SIZE ≤ march_buffer cfg ∨ march_buffer cfg + SRAM_SEC_SIZE ≤ p := by
      rcases hd with h | h
      · exact absurd h hpb
      · exact h
    simp only [ne_eq, hpb, not_false_eq_true, if_true, if_false]
    have hsl := saveLoop_mem (march_buffer cfg) p SRAM_SEC_SIZE 0 M hf (by omega) (by omega)
      (by omega)
    have hfs : (saveLoop (march_buffer cfg) p SRAM_SEC_SIZE 0 M).fault = [] :=
      (saveLoop_ctl _ _ _ _ _).1.trans hf
    refine bind_ok (fun M1 => M1.fault = [] ∧ ∀ a, M1.mem a =
      if march_buffer cfg ≤ a ∧ a < march_buffer cfg + SRAM_SEC_SIZE then
        M.mem (p + (a - march_buffer cfg)) else M.mem a) ?_ ?_
    · obtain ⟨R, hR, hmem⟩ := saveCheck_ok (march_buffer cfg) p SRAM_SEC_SIZE 0 _ hfs
        (by omega) (by omega)
        (fun j _ hj => by
          rw [hsl, hsl, if_pos (by omega), if_neg (by omega)]
          congr 1
          omega)
      refine ⟨R, hR, (fault_of_ok (saveCheck_ctl _ _ _ _ _) hR).trans hfs, fun a => ?_⟩
      rw [hmem a, hsl a]
      split_ifs <;> first | rfl | omega
    intro M1 ⟨hf1, hm1⟩
    refine marchSteps_ok p M1 hf1 hp _ _ (fun M5 hf5 hm5 => ?_)
    have hrl := restoreLoop_mem (march_buffer cfg) p SRAM_SEC_SIZE 0 M5 hf5 (by omega)
      (by omega) (by omega)
    have hfr : (restoreLoop (march_buffer cfg) p SRAM_SEC_SIZE 0 M5).fault = [] :=
      (restoreLoop_ctl _ _ _ _ _).1.trans hf5
    obtain ⟨R, hR, hmem⟩ := restoreCheck_ok (march_buffer cfg) p SRAM_SEC_SIZE 0 _ hfr
      (by omega) (by omega)
      (fun j _ hj => by
        rw [hrl, hrl, if_pos (by omega), if_neg (by omega)]
        congr 1
        omega)
    refine ⟨R, hR, (fault_of_ok (restoreCheck_ctl _ _ _ _ _) hR).trans hfr, fun a => ?_⟩
    rw [hmem a, hrl a]
    split_ifs with h1 h2
    · omega
    · rw [hm5, if_neg (by omega), hm1, if_pos (by omega)]
      congr 1
      omega
    · rw [hm5 a, if_neg (by omega), hm1 a, if_pos (by omega)]
    · rw [hm5 a, if_neg (by omega), hm1 a, if_neg (by omega)]

/-- C18 (scratch-buffer special case): when the section under test is the scratch buffer
itself, `checkboardTest` and the section body of `DIAG_SRAM_MarchB` consist of the
destructive steps alone, with no save and no restore, for every machine; on fault-free
memory the test passes and leaves the buffer in the final test state (`0x55, 0xAA, ...` for
Checkerboard, all `0x00` for March-B); and the test of a following section, which does not
overlap the buffer, passes and leaves in the buffer the content of that section. -/
theorem scratch_buffer_special_case (cfg : Config) (M : Machine) (hf : M.fault = [])
    (hcb : checkerbrd_buffer cfg + SRAM_SEC_SIZE ≤ 65536)
    (hmb : march_buffer cfg + SRAM_SEC_SIZE ≤ 65536) :
    (∀ (size : Nat) (N : Machine), checkboardTest cfg (checkerbrd_buffer cfg) size N =
      statusOf (
        patternRead (checkerbrd_buffer cfg) 0xAA 0x55 ((size + 1) / 2) 0
          (patternWrite (checkerbrd_buffer cfg) 0xAA 0x55 ((size + 1) / 2) 0
            { N with tests := N.tests ++ [(checkerbrd_buffer cfg, size)] }) >>= fun M2 =>
        patternRead (checkerbrd_buffer cfg) 0x55 0xAA ((size + 1) / 2) 0
          (patternWrite (checkerbrd_buffer cfg) 0x55 0xAA ((size + 1) / 2) 0 M2))) ∧
    (∀ N : Machine, marchSection cfg (march_buffer cfg) N =
      (marchStep2 (march_buffer cfg) SRAM_SEC_SIZE 0
          (marchStep1 (march_buffer cfg) SRAM_SEC_SIZE 0 N) >>= fun M2 =>
        marchStep3 (march_buffer cfg) SRAM_SEC_SIZE 0 M2 >>= fun M3 =>
        marchStep4 (march_buffer cfg) SRAM_SEC_SIZE M3 >>= fun M4 =>
        marchStep5 (march_buffer cfg) SRAM_SEC_SIZE M4)) ∧
    (∃ R, checkboardTest cfg (checkerbrd_buffer cfg) SRAM_SEC_SIZE M = (SRAM_OK, R) ∧
      R.fault = [] ∧
      (∀ i, i < SRAM_SEC_SIZE →
        R.mem (checkerbrd_buffer cfg + i) = if i % 2 = 0 then 0x55 else 0xAA) ∧
      ∀ p, p + SRAM_SEC_SIZE ≤ 65536 →
        (p + SRAM_SEC_SIZE ≤ checkerbrd_buffer cfg ∨ checkerbrd_buffer cfg + SRAM_SEC_SIZE ≤ p) →
        ∃ R1, checkboardTest cfg p SRAM_SEC_SIZE R = (SRAM_OK, R1) ∧
          ∀ i, i < SRAM_SEC_SIZE → R1.mem (checkerbrd_buffer cfg + i) = R.mem (p + i)) ∧
    (∃ R, marchSection cfg (march_buffer cfg) M = .ok R ∧ R.fault = [] ∧
      (∀ i, i < SRAM_SEC_SIZE → R.mem (march_buffer cfg + i) = 0x00) ∧
      ∀ p, p + SRAM_SEC_SIZE ≤ 65536 →
        (p + SRAM_SEC_SIZE ≤ march_buffer cfg ∨ march_buffer cfg + SRAM_SEC_SIZE ≤ p) →
        ∃ R1, marchSection cfg p R = .ok R1 ∧
          ∀ i, i < SRAM_SEC_SIZE → R1.mem (march_buffer cfg + i) = R.mem (p + i)) := by
  have h16 : SRAM_SEC_SIZE = 16 := rfl
  have hw : patternWidth SRAM_SEC_SIZE = 16 := rfl
  refine ⟨?_, ?_, ?_, ?_⟩
  · intro size N
    rw [checkboardTest_eq]
    simp only [checkboardSaved, checkboardRestored, ne_eq, not_true_eq_false, if_false,
      except_pure_bind, except_bind_pure]
  · intro N
    unfold marchSection
    simp only [ne_eq, not_true_eq_false, if_false, except_pure_bind, except_bind_pure]
  · obtain ⟨R, hR, hfR, hmR⟩ := checkboardTest_ok cfg (checkerbrd_buffer cfg) SRAM_SEC_SIZE
      M hf (by rw [hw]; rw [h16] at hcb; omega) hcb (Or.inl rfl)
    refine ⟨R, hR, hfR, fun i hi => ?_, fun p hp hd => ?_⟩
    · rw [hmR]
      simp only [afterTest, hw, if_true]
      rw [h16] at hi
      rw [if_pos (by omega), Nat.add_sub_cancel_left]
    · obtain ⟨R1, hR1, _, hmR1⟩ := checkboardTest_ok cfg p SRAM_SEC_SIZE R hfR
        (by rw [hw]; rw [h16] at hp; omega) hcb
        (by rw [hw]; rw [h16] at hd ⊢; omega)
      refine ⟨R1, hR1, fun i hi => ?_⟩
      rw [hmR1]
      simp only [afterTest]
      rw [h16] at hi hd hp hcb
      rw [if_neg (by omega), if_pos (by rw [h16]; omega), Nat.add_sub_cancel_left]
  · obtain ⟨R, hR, hfR, hmR⟩ := marchSection_mem cfg (march_buffer cfg) M hf hmb hmb
      (Or.inl rfl)
    refine ⟨R, hR, hfR, fun i hi => ?_, fun p hp hd => ?_⟩
    · rw [hmR, if_pos rfl, if_pos (by omega)]
    · obtain ⟨R1, hR1, _, hmR1⟩ := marchSection_mem cfg p R hfR hp hmb (Or.inr hd)
      refine ⟨R1, hR1, fun i hi => ?_⟩
      rw [hmR1, if_neg (by omega), if_pos (by omega), Nat.add_sub_cancel_left]

/-- Both buffers of the 64-byte RAM, on memory holding a ramp. -/
theorem scratch_buffer_special_case_witness :
    ∃ R, marchSection ram64 (march_buffer ram64) rampMachine = .ok R ∧ R.fault = [] ∧
      (∀ i, i < SRAM_SEC_SIZE → R.mem (march_buffer ram64 + i) = 0x00) ∧
      ∀ p, p + SRAM_SEC_SIZE ≤ 65536 →
        (p + SRAM_SEC_SIZE ≤ march_buffer ram64 ∨ march_buffer ram64 + SRAM_SEC_SIZE ≤ p) →
        ∃ R1, marchSection ram64 p R = .ok R1 ∧
          ∀ i, i < SRAM_SEC_SIZE → R1.mem (march_buffer ram64 + i) = R.mem (p + i) :=
  (scratch_buffer_special_case ram64 rampMachine rfl (by decide) (by decide)).2.2.2

/-! ## The error path of the Checkerboard engine -/

theorem eq_ok_final {e : Except Machine Machine} (h : isOk e = true) : e = .ok (final e) := by
  cases e with
  | ok R => rfl
  | error R => cases h

theorem eq_error_final {e : Except Machine Machine} (h : isOk e = false) :
    e = .error (final e) := by
  cases e with
  | ok R => cases h
  | error R => rfl

theorem writes_append (l1 l2 : List Access) : writes (l1 ++ l2) = writes l1 ++ writes l2 := by
  induction l1 with
  | nil => rfl
  | cons e rest ih =>
    cases e with
    | rd a v => simpa [writes] using ih
    | wr a v => simpa [writes] using ih

theorem patternRead_mem (address x y : Nat) :
    ∀ (n i : Nat) (M : Machine),
      (final (patternRead address x y n i M)).mem = M.mem ∧
      writes (final (patternRead address x y n i M)).log = writes M.log := by
  intro n
  induction n with
  | zero => intro i M; exact ⟨rfl, rfl⟩
  | succ n ih =>
    intro i M
    simp only [patternRead]
    split
    · split
      · simp [final, rd, writes_append, writes]
      · have := ih (i + 2) (rd (rd M (ptr address i)).2 (ptr (ptr address i) 1)).2
        simpa [rd, writes_append, writes] using this
    · have := ih (i + 2) (rd M (ptr address i)).2
      simpa [rd, writes_append, writes] using this

theorem checkerSections_eq_runTests (cfg : Config) (startAddress : Nat) :
    ∀ (n nSec : Nat) (M : Machine),
      checkerSections cfg startAddress n nSec M =
        runTests cfg ((List.range' nSec n).map
          (fun k => (ptr startAddress ((SRAM_SEC_SIZE * k) % 65536), SRAM_SEC_SIZE))) M := by
  intro n
  induction n with
  | zero => intro nSec M; rfl
  | succ n ih =>
    intro nSec M
    simp only [checkerSections, List.range'_succ, List.map_cons, runTests]
    cases checkboardTest cfg (ptr startAddress (SRAM_SEC_SIZE * nSec % 65536))
        SRAM_SEC_SIZE M with
    | mk st M1 =>
      cases st with
      | SRAM_ERROR => rfl
      | SRAM_OK => exact ih (nSec + 1) M1

theorem runTests_append (cfg : Config) :
    ∀ (l1 l2 : List (Nat × Nat)) (M : Machine),
      runTests cfg (l1 ++ l2) M = (runTests cfg l1 M >>= fun M1 => runTests cfg l2 M1) := by
  intro l1
  induction l1 with
  | nil => intro l2 M; rfl
  | cons t rest ih =>
    intro l2 M
    simp only [List.cons_append, runTests]
    cases checkboardTest cfg t.1 t.2 M with
    | mk st M1 =>
      cases st with
      | SRAM_ERROR => rfl
      | SRAM_OK => exact ih l2 M1

theorem runTests_tests (cfg : Config) :
    ∀ (l : List (Nat × Nat)) (M R : Machine), runTests cfg l M = .ok R →
      R.tests = M.tests ++ l := by
  intro l
  induction l with
  | nil =>
    intro M R h
    simp only [runTests, Except.ok.injEq] at h
    simp [h]
  | cons t rest ih =>
    intro M R h
    simp only [runTests] at h
    have hc := (checkboardTest_ctl cfg t.1 t.2 M).2.2.2
    cases hres : checkboardTest cfg t.1 t.2 M with
    | mk st M1 =>
      rw [hres] at h hc
      cases st with
      | SRAM_ERROR => simp at h
      | SRAM_OK =>
        simp only at h hc
        rw [ih _ _ h, hc]
        simp

/-- An accepted call runs its planned section tests up to the first error, then sets the
interrupt flag and returns. -/
theorem DIAG_SRAM_CheckerBoard_eq_runTests (cfg : Config) (startAddress length : Nat)
    (M : Machine)
    (hacc : ¬ (startAddress < cfg.INTERNAL_SRAM_START % 65536 ∨
      startAddress > (cfg.INTERNAL_SRAM_START + cfg.INTERNAL_SRAM_SIZE) % 65536 ∨
      length = 0 ∨ length > cfg.INTERNAL_SRAM_SIZE)) :
    DIAG_SRAM_CheckerBoard cfg startAddress length M =
      ((statusOf (runTests cfg (plannedTests startAddress length)
          { M with SREG := M.SREG &&& (255 - cfg.CPU_I_bm % 256) })).1,
        restoreGIE cfg (if (M.SREG ||| cfg.CPU_I_bm) ≠ 0 then 1 else 0)
          (final (runTests cfg (plannedTests startAddress length)
            { M with SREG := M.SREG &&& (255 - cfg.CPU_I_bm % 256) }))) := by
  rw [DIAG_SRAM_CheckerBoard_accepted cfg startAddress length M hacc]
  unfold plannedTests
  rw [runTests_append, ← checkerSections_eq_runTests]
  cases checkerSections cfg startAddress (length / SRAM_SEC_SIZE) 0
      { M with SREG := M.SREG &&& (255 - cfg.CPU_I_bm % 256) } with
  | error R => rfl
  | ok M1 =>
    simp only [except_pure_bind, bind, Except.bind]
    split
    · simp only [runTests]
      cases checkboardTest cfg (ptr startAddress
          ((SRAM_SEC_SIZE * ((length / SRAM_SEC_SIZE + 65535) % 65536)) % 65536))
          ((length % SRAM_SEC_SIZE) % 256) M1 with
      | mk st M2 =>
        cases st with
        | SRAM_ERROR => rfl
        | SRAM_OK => rfl
    · rfl

/-- C17 (Checkerboard error path): let an accepted call reach the section test
`(address, size)` of its plan after the tests before it passed, let the save phase of that
test pass, and let a pattern read-back fail: the first one (`x, y = 0xAA, 0x55`) or, after
the first one passed, the second one (`x, y = 0x55, 0xAA`).  Then `checkboardTest` returns
`SRAM_ERROR` with the machine `R` of the failing read; the cells of the section hold the
pattern written last and nothing was written after it (no restore); and
`DIAG_SRAM_CheckerBoard` returns `SRAM_ERROR` with that very machine (up to `SREG`): the
tests after `(address, size)`, the remainder test included, are not run. -/
theorem checkerBoard_readback_error_path (cfg : Config) (startAddress length : Nat)
    (M : Machine) (pre post : List (Nat × Nat)) (address size : Nat)
    (Mk M1 W R : Machine) (x y : Nat)
    (hacc : ¬ (startAddress < cfg.INTERNAL_SRAM_START % 65536 ∨
      startAddress > (cfg.INTERNAL_SRAM_START + cfg.INTERNAL_SRAM_SIZE) % 65536 ∨
      length = 0 ∨ length > cfg.INTERNAL_SRAM_SIZE))
    (hplan : plannedTests startAddress length = pre ++ (address, size) :: post)
    (hrun : runTests cfg pre { M with SREG := M.SREG &&& (255 - cfg.CPU_I_bm % 256) }
      = .ok Mk)
    (hsave : checkboardSaved cfg address size
      { Mk with tests := Mk.tests ++ [(address, size)] } = .ok M1)
    (hfail : (x = 0xAA ∧ y = 0x55 ∧
        W = patternWrite address 0xAA 0x55 ((size + 1) / 2) 0 M1 ∧
        patternRead address 0xAA 0x55 ((size + 1) / 2) 0 W = .error R) ∨
      (x = 0x55 ∧ y = 0xAA ∧ ∃ M2,
        patternRead address 0xAA 0x55 ((size + 1) / 2) 0
          (patternWrite address 0xAA 0x55 ((size + 1) / 2) 0 M1) = .ok M2 ∧
        W = patternWrite address 0x55 0xAA ((size + 1) / 2) 0 M2 ∧
        patternRead address 0x55 0xAA ((size + 1) / 2) 0 W = .error R))
    (hfit : address + patternWidth size ≤ 65536) :
    checkboardTest cfg address size Mk = (SRAM_ERROR, R) ∧
    DIAG_SRAM_CheckerBoard cfg startAddress length M =
      (SRAM_ERROR, restoreGIE cfg (if (M.SREG ||| cfg.CPU_I_bm) ≠ 0 then 1 else 0) R) ∧
    (∀ i, i < patternWidth size → R.mem (address + i) = if i % 2 = 0 then x else y) ∧
    writes R.log = writes W.log ∧
    (∃ L b v, R.log = L ++ [Access.rd b v]) ∧
    R.tests = M.tests ++ pre ++ [(address, size)] := by
  have hw : patternWidth size = 2 * ((size + 1) / 2) := rfl
  have hW : ∃ N, W = patternWrite address x y ((size + 1) / 2) 0 N ∧
      patternRead address x y ((size + 1) / 2) 0 W = .error R := by
    rcases hfail with ⟨hx, hy, hWeq, hr⟩ | ⟨hx, hy, M2, _, hWeq, hr⟩
    · subst hx hy
      exact ⟨M1, hWeq, hr⟩
    · subst hx hy
      exact ⟨M2, hWeq, hr⟩
  have htest : checkboardTest cfg address size Mk = (SRAM_ERROR, R) := by
    rw [checkboardTest_eq, hsave]
    rcases hfail with ⟨_, _, hWeq, hr⟩ | ⟨_, _, M2, h1, hWeq, hr⟩
    · subst hWeq
      simp only [bind, Except.bind, hr]
      rfl
    · subst hWeq
      simp only [bind, Except.bind, h1, hr]
      rfl
  obtain ⟨N, hWN, hr⟩ := hW
  have hfin : final (patternRead address x y ((size + 1) / 2) 0 W) = R := by
    rw [hr]
    rfl
  have hpm := patternRead_mem address x y ((size + 1) / 2) 0 W
  rw [hfin] at hpm
  refine ⟨htest, ?_, ?_, hpm.2, patternRead_error_log _ _ _ _ _ _ _ hr, ?_⟩
  · rw [DIAG_SRAM_CheckerBoard_eq_runTests cfg startAddress length M hacc, hplan,
      runTests_append, hrun]
    simp only [bind, Except.bind, runTests, htest]
    rfl
  · intro i hi
    rw [hpm.1, hWN, patternWrite_mem address x y ((size + 1) / 2) 0 N (by omega)]
    rw [if_pos (by omega)]
    simp only [Nat.add_zero, Nat.add_sub_cancel_left]
  · have hc := (checkboardTest_ctl cfg address size Mk).2.2.2
    rw [htest] at hc
    rw [hc, runTests_tests cfg pre _ Mk hrun]

set_option maxRecDepth 100000 in
/-- The 64-byte RAM holding a ramp with two stuck bits, bit 0 of `0x4024` at 1 and bit 0 of
`0x4025` at 0: sections 0 and 1 pass, the first read-back of section 2 fails, section 3 is
not tested. -/
theorem checkerBoard_readback_error_path_witness :
    (DIAG_SRAM_CheckerBoard ram64 0x4000 64
      (faultyRamp [{ addr := 0x4024, bit := 0, value := true },
        { addr := 0x4025, bit := 0, value := false }])).1 = SRAM_ERROR ∧
    (DIAG_SRAM_CheckerBoard ram64 0x4000 64
      (faultyRamp [{ addr := 0x4024, bit := 0, value := true },
        { addr := 0x4025, bit := 0, value := false }])).2.tests =
      [(0x4000, 16), (0x4010, 16), (0x4020, 16)] ∧
    ∀ i, i < patternWidth 16 →
      (DIAG_SRAM_CheckerBoard ram64 0x4000 64
        (faultyRamp [{ addr := 0x4024, bit := 0, value := true },
          { addr := 0x4025, bit := 0, value := false }])).2.mem (0x4020 + i) =
        if i % 2 = 0 then 0xAA else 0x55 := by
  have h := checkerBoard_readback_error_path ram64 0x4000 64
    (faultyRamp [{ addr := 0x4024, bit := 0, value := true },
      { addr := 0x4025, bit := 0, value := false }])
    [(0x4000, 16), (0x4010, 16)] [(0x4030, 16)] 0x4020 16 _ _ _ _ 0xAA 0x55
    (by decide) (by decide)
    (eq_ok_final (by decide)) (eq_ok_final (by decide))
    (Or.inl ⟨rfl, rfl, rfl, eq_error_final (by decide)⟩) (by decide)
  refine ⟨?_, ?_, ?_⟩
  · rw [h.2.1]
  · rw [h.2.1]
    exact h.2.2.2.2.2
  · intro i hi
    rw [h.2.1]
    exact h.2.2.1 i hi

set_option maxRecDepth 100000 in
/-- C20, evaluated at a failing input: the accepted 5-byte call from `0x4030` in the 64-byte
RAM (buffer `[0x4010, 0x4020)`) has no full section, `sections - 1` wraps to `65535`, and
the remainder test runs at `0x4030 - 16 = 0x4020`: the call returns `SRAM_OK` having written
`0x4020 .. 0x4025`, outside the region and outside the buffer, never written inside
`[0x4030, 0x4035)`, and left `0xAA` in `0x4025`. -/
theorem checkerBoard_short_length_footprint :
    (DIAG_SRAM_CheckerBoard ram64 0x4030 5 (zeroMachine 0)).1 = SRAM_OK ∧
    (DIAG_SRAM_CheckerBoard ram64 0x4030 5 (zeroMachine 0)).2.tests = [(0x4020, 5)] ∧
    (writes (DIAG_SRAM_CheckerBoard ram64 0x4030 5 (zeroMachine 0)).2.log).eraseDups =
      [0x4010, 0x4011, 0x4012, 0x4013, 0x4014,
        0x4020, 0x4021, 0x4022, 0x4023, 0x4024, 0x4025] ∧
    (DIAG_SRAM_CheckerBoard ram64 0x4030 5 (zeroMachine 0)).2.mem 0x4025 = 0xAA := by
  decide

/-! ## No false alarm of the Checkerboard engine -/

theorem plannedTests_size (startAddress length : Nat) (t : Nat × Nat)
    (ht : t ∈ plannedTests startAddress length) : t.2 ≤ SRAM_SEC_SIZE := by
  unfold plannedTests at ht
  rw [List.mem_append] at ht
  rcases ht with h | h
  · obtain ⟨k, _, hk⟩ := List.mem_map.mp h
    rw [← hk]
  · split at h
    · rw [List.mem_singleton] at h
      rw [h]
      simp only [SRAM_SEC_SIZE]
      omega
    · cases h

theorem runTests_ok (cfg : Config) :
    ∀ (l : List (Nat × Nat)) (M : Machine), M.fault = [] →
      (∀ t, t ∈ l → t.1 + patternWidth t.2 ≤ 65536 ∧ checkerbrd_buffer cfg + t.2 ≤ 65536 ∧
        (t.1 = checkerbrd_buffer cfg ∨ t.1 + patternWidth t.2 ≤ checkerbrd_buffer cfg ∨
          checkerbrd_buffer cfg + t.2 ≤ t.1)) →
      ∃ R, runTests cfg l M = .ok R ∧ R.fault = [] := by
  intro l
  induction l with
  | nil => intro M hf _; exact ⟨M, rfl, hf⟩
  | cons t rest ih =>
    intro M hf hall
    obtain ⟨h1, h2, h3⟩ := hall t (List.mem_cons_self _ _)
    obtain ⟨R1, hR1, hf1, _⟩ := checkboardTest_ok cfg t.1 t.2 M hf h1 h2 h3
    obtain ⟨R, hR, hfR⟩ := ih R1 hf1 (fun u hu => hall u (List.mem_cons_of_mem _ hu))
    refine ⟨R, ?_, hfR⟩
    simp only [runTests, hR1]
    exact hR

/-- C21 (no false alarm), amended: on fault-free memory, for every initial memory content,
an accepted call of `DIAG_SRAM_CheckerBoard` returns `SRAM_OK` provided every section test
it has in store (the full sections and the remainder section, where the code places them)
is on `checkerbrd_buffer` itself or does not overlap it, and all of them lie in the 16-bit
data space. -/
theorem checkerBoard_no_false_alarm (cfg : Config) (startAddress length : Nat) (M : Machine)
    (hf : M.fault = [])
    (hacc : ¬ (startAddress < cfg.INTERNAL_SRAM_START % 65536 ∨
      startAddress > (cfg.INTERNAL_SRAM_START + cfg.INTERNAL_SRAM_SIZE) % 65536 ∨
      length = 0 ∨ length > cfg.INTERNAL_SRAM_SIZE))
    (hb : checkerbrd_buffer cfg + SRAM_SEC_SIZE ≤ 65536)
    (hsec : ∀ t, t ∈ plannedTests startAddress length →
      t.1 + patternWidth t.2 ≤ 65536 ∧
      (t.1 = checkerbrd_buffer cfg ∨ t.1 + patternWidth t.2 ≤ checkerbrd_buffer cfg ∨
        checkerbrd_buffer cfg + t.2 ≤ t.1)) :
    (DIAG_SRAM_CheckerBoard cfg startAddress length M).1 = SRAM_OK := by
  obtain ⟨R, hR, _⟩ := runTests_ok cfg (plannedTests startAddress length)
    { M with SREG := M.SREG &&& (255 - cfg.CPU_I_bm % 256) } hf
    (fun t ht => ⟨(hsec t ht).1, by
      have := plannedTests_size startAddress length t ht
      omega, (hsec t ht).2⟩)
  rw [DIAG_SRAM_CheckerBoard_eq_runTests cfg startAddress length M hacc, hR]
  rfl

/-- The 50-byte call from the RAM base of the 64-byte RAM: section 1 is the buffer itself,
the other tests are clear of it. -/
theorem checkerBoard_no_false_alarm_witness :
    (DIAG_SRAM_CheckerBoard ram64 0x4000 50 rampMachine).1 = SRAM_OK :=
  checkerBoard_no_false_alarm ram64 0x4000 50 rampMachine rfl (by decide) (by decide)
    (by decide)

set_option maxRecDepth 100000 in
/-- C21 as stated fails: on fault-free memory holding a ramp, the accepted 16-byte call from
`0x4018`, whose only section lies across `checkerbrd_buffer = [0x4010, 0x4020)`, returns
`SRAM_ERROR`. -/
theorem checkerBoard_false_alarm :
    rampMachine.fault = [] ∧
    ¬ (0x4018 < ram64.INTERNAL_SRAM_START % 65536 ∨
      0x4018 > (ram64.INTERNAL_SRAM_START + ram64.INTERNAL_SRAM_SIZE) % 65536 ∨
      16 = 0 ∨ 16 > ram64.INTERNAL_SRAM_SIZE) ∧
    plannedTests 0x4018 16 = [(0x4018, 16)] ∧
    (DIAG_SRAM_CheckerBoard ram64 0x4018 16 rampMachine).1 = SRAM_ERROR := by
  decide

/-! ## Sections whose cells are fault-free behave as on fault-free memory -/

theorem marchSection_phases (cfg : Config) (p : Nat) (M : Machine) :
    marchSection cfg p M =
      (marchSaved cfg p M >>= fun M1 => marchSteps p M1 >>= fun M5 => marchRestored cfg p M5) := by
  unfold marchSection marchSaved marchSteps marchRestored
  simp only [bind_assoc]

theorem saveLoop_log (buf p : Nat) (m : Nat → Nat) :
    ∀ (n i : Nat) (M : Machine), M.fault = [] →
      p + i + n ≤ 65536 → buf + i + n ≤ 65536 →
      (p + (i + n) ≤ buf ∨ buf + (i + n) ≤ p) →
      (∀ j, i ≤ j → j < i + n → M.mem (p + j) = m (p + j)) →
      (saveLoop buf p n i M).log = M.log ++ perOffset (List.range' i n) (fun j =>
        [Access.rd (p + j) (m (p + j)), Access.wr (buf + j) (m (p + j))]) := by
  intro n
  induction n with
  | zero => intro i M _ _ _ _ _; simp [saveLoop, perOffset]
  | succ n ih =>
    intro i M hf ha hb hd hpre
    have h0 : M.mem (p + i) = m (p + i) := hpre i (le_refl _) (by omega)
    simp only [saveLoop, ptr_eq (show p + i < 65536 by omega),
      ptr_eq (show buf + i < 65536 by omega)]
    rw [ih (i + 1) (wr (rd M (p + i)).2 (buf + i) (rd M (p + i)).1) hf (by omega) (by omega) (by omega)
      (fun j hj1 hj2 => by
        have := hpre j (by omega) (by omega)
        have hne : p + j ≠ buf + i := by omega
        simp [wr, rd, hne, this])]
    simp [wr, rd, Machine.peek, stuck, force, hf, h0, List.range'_succ, perOffset]

theorem restoreLoop_log (buf p : Nat) (m : Nat → Nat) :
    ∀ (n i : Nat) (M : Machine), M.fault = [] →
      p + i + n ≤ 65536 → buf + i + n ≤ 65536 →
      (p + (i + n) ≤ buf ∨ buf + (i + n) ≤ p) →
      (∀ j, i ≤ j → j < i + n → M.mem (buf + j) = m (p + j)) →
      (restoreLoop buf p n i M).log = M.log ++ perOffset (List.range' i n) (fun j =>
        [Access.rd (buf + j) (m (p + j)), Access.wr (p + j) (m (p + j))]) := by
  intro n
  induction n with
  | zero => intro i M _ _ _ _ _; simp [restoreLoop, perOffset]
  | succ n ih =>
    intro i M hf ha hb hd hpre
    have h0 : M.mem (buf + i) = m (p + i) := hpre i (le_refl _) (by omega)
    simp only [restoreLoop, ptr_eq (show p + i < 65536 by omega),
      ptr_eq (show buf + i < 65536 by omega)]
    rw [ih (i + 1) (wr (rd M (buf + i)).2 (p + i) (rd M (buf + i)).1) hf (by omega) (by omega) (by omega)
      (fun j hj1 hj2 => by
        have := hpre j (by omega) (by omega)
        have hne : buf + j ≠ p + i := by omega
        simp [wr, rd, hne, this])]
    simp [wr, rd, Machine.peek, stuck, force, hf, h0, List.range'_succ, perOffset]

theorem saveCheck_log (buf p : Nat) (m : Nat → Nat) :
    ∀ (n i : Nat) (M : Machine), M.fault = [] →
      p + i + n ≤ 65536 → buf + i + n ≤ 65536 →
      (∀ j, i ≤ j → j < i + n → M.mem (buf + j) = m (p + j) ∧ M.mem (p + j) = m (p + j)) →
      (final (saveCheck buf p n i M)).log = M.log ++ perOffset (List.range' i n) (fun j =>
        [Access.rd (buf + j) (m (p + j)), Access.rd (p + j) (m (p + j))]) := by
  intro n
  induction n with
  | zero => intro i M _ _ _ _; simp [saveCheck, perOffset, final]
  | succ n ih =>
    intro i M hf ha hb hpre
    have h0 := hpre i (le_refl _) (by omega)
    have e1 : (rd M (buf + i)).1 = (rd (rd M (buf + i)).2 (p + i)).1 := by
      simp [rd, Machine.peek, stuck, force, hf, h0.1, h0.2]
    simp only [saveCheck, ptr_eq (show p + i < 65536 by omega),
      ptr_eq (show buf + i < 65536 by omega), e1, ne_eq, not_true_eq_false, if_false]
    rw [ih (i + 1) (rd (rd M (buf + i)).2 (p + i)).2 hf (by omega) (by omega)
      (fun j hj1 hj2 => hpre j (by omega) (by omega))]
    simp [rd, Machine.peek, stuck, force, hf, h0.1, h0.2, List.range'_succ, perOffset]

theorem restoreCheck_log (buf p : Nat) (m : Nat → Nat) :
    ∀ (n i : Nat) (M : Machine), M.fault = [] →
      p + i + n ≤ 65536 → buf + i + n ≤ 65536 →
      (∀ j, i ≤ j → j < i + n → M.mem (buf + j) = m (p + j) ∧ M.mem (p + j) = m (p + j)) →
      (final (restoreCheck buf p n i M)).log = M.log ++ perOffset (List.range' i n) (fun j =>
        [Access.rd (p + j) (m (p + j)), Access.rd (buf + j) (m (p + j))]) := by
  intro n
  induction n with
  | zero => intro i M _ _ _ _; simp [restoreCheck, perOffset, final]
  | succ n ih =>
    intro i M hf ha hb hpre
    have h0 := hpre i (le_refl _) (by omega)
    have e1 : (rd M (p + i)).1 = (rd (rd M (p + i)).2 (buf + i)).1 := by
      simp [rd, Machine.peek, stuck, force, hf, h0.1, h0.2]
    simp only [restoreCheck, ptr_eq (show p + i < 65536 by omega),
      ptr_eq (show buf + i < 65536 by omega), e1, ne_eq, not_true_eq_false, if_false]
    rw [ih (i + 1) (rd (rd M (p + i)).2 (buf + i)).2 hf (by omega) (by omega)
      (fun j hj1 hj2 => hpre j (by omega) (by omega))]
    simp [rd, Machine.peek, stuck, force, hf, h0.1, h0.2, List.range'_succ, perOffset]

/-- Steps 1 to 5 on a fault-free section: they pass, leave the section cleared, and their
accesses are `marchBTrace`. -/
theorem marchSteps_trace (p : Nat) (M1 : Machine) (hf : M1.fault = [])
    (hp : p + SRAM_SEC_SIZE ≤ 65536) :
    ∃ M5, marchSteps p M1 = .ok M5 ∧ M5.fault = [] ∧
      (∀ a, M5.mem a = if p ≤ a ∧ a < p + SRAM_SEC_SIZE then 0 else M1.mem a) ∧
      M5.log = M1.log ++ marchBTrace p SRAM_SEC_SIZE := by
  have hm1 := marchStep1_mem p SRAM_SEC_SIZE 0 M1 (by omega)
  have hl1 := marchStep1_log p SRAM_SEC_SIZE 0 M1 (by omega)
  have hf1 : (marchStep1 p SRAM_SEC_SIZE 0 M1).fault = [] :=
    (marchStep1_ctl p SRAM_SEC_SIZE 0 M1).1.trans hf
  have hpre2 : ∀ j, 0 ≤ j → j < 0 + SRAM_SEC_SIZE →
      (marchStep1 p SRAM_SEC_SIZE 0 M1).mem (p + j) = 0 :=
    fun j _ hj => by rw [hm1]; rw [if_pos (by omega)]
  obtain ⟨M2, h2, hm2⟩ := marchStep2_ok p SRAM_SEC_SIZE 0 _ hf1 (by omega) hpre2
  have hl2 := marchStep2_log p SRAM_SEC_SIZE 0 _ hf1 (by omega) hpre2
  rw [final_ok h2] at hl2
  have hf2 : M2.fault = [] := (fault_of_ok (marchStep2_ctl _ _ _ _) h2).trans hf1
  have hpre3 : ∀ j, 0 ≤ j → j < 0 + SRAM_SEC_SIZE → M2.mem (p + j) = 0xFF :=
    fun j _ hj => by rw [hm2]; rw [if_pos (by omega)]
  obtain ⟨M3, h3, hm3⟩ := marchStep3_ok p SRAM_SEC_SIZE 0 M2 hf2 (by omega) hpre3
  have hl3 := marchStep3_log p SRAM_SEC_SIZE 0 M2 hf2 (by omega) hpre3
  rw [final_ok h3] at hl3
  have hf3 : M3.fault = [] := (fault_of_ok (marchStep3_ctl _ _ _ _) h3).trans hf2
  have hpre4 : ∀ j, j < SRAM_SEC_SIZE → M3.mem (p + j) = 0xFF :=
    fun j hj => by rw [hm3, hm2]; rw [if_pos (by omega)]
  obtain ⟨M4, h4, hm4⟩ := marchStep4_ok p SRAM_SEC_SIZE M3 hf3 (by omega) hpre4
  have hl4 := marchStep4_log p SRAM_SEC_SIZE M3 hf3 (by omega) hpre4
  rw [final_ok h4] at hl4
  have hf4 : M4.fault = [] := (fault_of_ok (marchStep4_ctl _ _ _) h4).trans hf3
  have hpre5 : ∀ j, j < SRAM_SEC_SIZE → M4.mem (p + j) = 0 :=
    fun j hj => by rw [hm4]; rw [if_pos (by omega)]
  obtain ⟨M5, h5, hm5⟩ := marchStep5_ok p SRAM_SEC_SIZE M4 hf4 (by omega) hpre5
  have hl5 := marchStep5_log p SRAM_SEC_SIZE M4 hf4 (by omega) hpre5
  rw [final_ok h5] at hl5
  refine ⟨M5, ?_, (fault_of_ok (marchStep5_ctl _ _ _) h5).trans hf4, fun a => ?_, ?_⟩
  · simp only [marchSteps, h2, h3, h4, h5, bind, Except.bind]
  · rw [hm5 a, hm4 a, hm3 a, hm2 a, hm1 a]
    split_ifs <;> first | rfl | omega
  · rw [hl5, hl4, hl3, hl2, hl1]
    simp only [marchBTrace, ← List.range_eq_range', List.append_assoc]

/-- One section test of `DIAG_SRAM_MarchB` on fault-free memory passes, and its accesses
are those of the save phase, then `marchBTrace`, then those of the restore phase; for the
buffer's own section there is neither save nor restore. -/
theorem marchSection_trace (cfg : Config) (p : Nat) (M : Machine) (hf : M.fault = [])
    (hp : p + SRAM_SEC_SIZE ≤ 65536) (hb : march_buffer cfg + SRAM_SEC_SIZE ≤ 65536)
    (hd : p = march_buffer cfg ∨ p + SRAM_SEC_SIZE ≤ march_buffer cfg ∨
      march_buffer cfg + SRAM_SEC_SIZE ≤ p) :
    ∃ R, marchSection cfg p M = .ok R ∧
      R.log = M.log ++
        (if p ≠ march_buffer cfg then saveTrace (march_buffer cfg) p SRAM_SEC_SIZE M.mem
          else []) ++
        marchBTrace p SRAM_SEC_SIZE ++
        (if p ≠ march_buffer cfg then restoreTrace (march_buffer cfg) p SRAM_SEC_SIZE M.mem
          else []) := by
  have h16 : SRAM_SEC_SIZE = 16 := rfl
  rw [marchSection_phases]
  by_cases hpb : p = march_buffer cfg
  · obtain ⟨M5, h5, _, _, hl5⟩ := marchSteps_trace p M hf hp
    refine ⟨M5, ?_, ?_⟩
    · simp only [marchSaved, marchRestored, ne_eq, hpb, not_true_eq_false, if_false]
      rw [except_pure_bind, ← hpb, h5]
      rfl
    · simp only [ne_eq, hpb, not_true_eq_false, if_false, List.append_nil]
      rw [hl5, hpb]
  · have hd2 : p + SRAM_SEC_SIZE ≤ march_buffer cfg ∨ march_buffer cfg + SRAM_SEC_SIZE ≤ p := by
      rcases hd with h | h
      · exact absurd h hpb
      · exact h
    have hsl := saveLoop_mem (march_buffer cfg) p SRAM_SEC_SIZE 0 M hf (by omega) (by omega)
      (by omega)
    have hsll := saveLoop_log (march_buffer cfg) p M.mem SRAM_SEC_SIZE 0 M hf (by omega)
      (by omega) (by omega) (fun _ _ _ => rfl)
    have hfs : (saveLoop (march_buffer cfg) p SRAM_SEC_SIZE 0 M).fault = [] :=
      (saveLoop_ctl _ _ _ _ _).1.trans hf
    have hsame : ∀ j, 0 ≤ j → j < 0 + SRAM_SEC_SIZE →
        (saveLoop (march_buffer cfg) p SRAM_SEC_SIZE 0 M).mem (march_buffer cfg + j) =
          M.mem (p + j) ∧
        (saveLoop (march_buffer cfg) p SRAM_SEC_SIZE 0 M).mem (p + j) = M.mem (p + j) := by
      intro j _ hj
      constructor
      · rw [hsl (march_buffer cfg + j), if_pos (by omega), Nat.add_sub_cancel_left]
      · rw [hsl (p + j), if_neg (by omega)]
    obtain ⟨M1, hM1, hmem1⟩ := saveCheck_ok (march_buffer cfg) p SRAM_SEC_SIZE 0 _ hfs
      (by omega) (by omega) (fun j h1 h2 => by rw [(hsame j h1 h2).1, (hsame j h1 h2).2])
    have hscl := saveCheck_log (march_buffer cfg) p M.mem SRAM_SEC_SIZE 0 _ hfs
      (by omega) (by omega) hsame
    rw [final_ok hM1] at hscl
    have hf1 : M1.fault = [] := (fault_of_ok (saveCheck_ctl _ _ _ _ _) hM1).trans hfs
    obtain ⟨M5, h5, hf5, hm5, hl5⟩ := marchSteps_trace p M1 hf1 hp
    have hbufM5 : ∀ j, j < SRAM_SEC_SIZE → M5.mem (march_buffer cfg + j) = M.mem (p + j) := by
      intro j hj
      rw [hm5, if_neg (by omega), hmem1]
      exact (hsame j (Nat.zero_le _) (by omega)).1
    have hrl := restoreLoop_mem (march_buffer cfg) p SRAM_SEC_SIZE 0 M5 hf5 (by omega)
      (by omega) (by omega)
    have hrll := restoreLoop_log (march_buffer cfg) p M.mem SRAM_SEC_SIZE 0 M5 hf5 (by omega)
      (by omega) (by omega) (fun j _ hj => hbufM5 j (by omega))
    have hfr : (restoreLoop (march_buffer cfg) p SRAM_SEC_SIZE 0 M5).fault = [] :=
      (restoreLoop_ctl _ _ _ _ _).1.trans hf5
    have hback : ∀ j, 0 ≤ j → j < 0 + SRAM_SEC_SIZE →
        (restoreLoop (march_buffer cfg) p SRAM_SEC_SIZE 0 M5).mem (march_buffer cfg + j) =
          M.mem (p + j) ∧
        (restoreLoop (march_buffer cfg) p SRAM_SEC_SIZE 0 M5).mem (p + j) = M.mem (p + j) := by
      intro j _ hj
      constructor
      · rw [hrl (march_buffer cfg + j), if_neg (by omega)]
        exact hbufM5 j (by omega)
      · rw [hrl (p + j), if_pos (by omega), Nat.add_sub_cancel_left]
        exact hbufM5 j (by omega)
    obtain ⟨R, hR, _⟩ := restoreCheck_ok (march_buffer cfg) p SRAM_SEC_SIZE 0 _ hfr
      (by omega) (by omega) (fun j h1 h2 => by rw [(hback j h1 h2).1, (hback j h1 h2).2])
    have hrcl := restoreCheck_log (march_buffer cfg) p M.mem SRAM_SEC_SIZE 0 _ hfr
      (by omega) (by omega) hback
    rw [final_ok hR] at hrcl
    refine ⟨R, ?_, ?_⟩
    · simp only [marchSaved, marchRestored, ne_eq, hpb, not_false_eq_true, if_true]
      rw [hM1]
      simp only [bind, Except.bind]
      rw [h5]
      exact hR
    · simp only [ne_eq, hpb, not_false_eq_true, if_true]
      rw [hrcl, hrll, hl5, hscl, hsll]
      simp only [saveTrace, restoreTrace, ← List.range_eq_range', List.append_assoc]

theorem testBit_ff (b : Nat) (h8 : b < 8) : Nat.testBit 0xFF b = true := by
  interval_cases b <;> rfl

theorem testBit_one_high (b : Nat) (h1 : 1 ≤ b) (h8 : b < 8) : Nat.testBit 1 b = false := by
  interval_cases b <;> rfl

theorem marchBTrace_bit0 (p size : Nat) :
    (marchBTrace p size).map (marchOpBit p 0) = marchBReference size := by
  simp [marchBTrace, marchBReference, perOffset_map, marchOpBit]

theorem marchBTrace_high_bits (p size b : Nat) (h1 : 1 ≤ b) (h8 : b < 8) :
    (marchBTrace p size).map (marchOpBit p b) = marchBHighBits size := by
  simp [marchBTrace, marchBHighBits, perOffset_map, marchOpBit, testBit_ff b h8,
    testBit_one_high b h1 h8]

set_option maxRecDepth 100000 in
theorem marchBHighBits_ne : marchBHighBits SRAM_SEC_SIZE ≠ marchBReference SRAM_SEC_SIZE := by
  decide

/-! ## C13: the sequence of a section test -/

/-- C13 (March-B sequence): on fault-free memory the test of a section at `p` by
`DIAG_SRAM_MarchB` passes, and its accesses are, in this order, those of the save phase,
then `marchBTrace` on the section (step 1 ascending; step 2 ascending; step 3 ascending;
step 4 descending; step 5 descending; every offset once per step, one step after the
other), then those of the restore phase.  Seen from bit 0 of each byte, `marchBTrace` is
the reference sequence.  Seen from each of the bits 1 to 7 it is not: the "write 1" of
steps 4 and 5 stores `0x01`, which writes 0 to these bits, so that their sequence in step 4
is (r1, w0, w0, w0) and in step 5 (r0, w0, w0). -/
theorem marchB_sequence (cfg : Config) (p : Nat) (M : Machine) (hf : M.fault = [])
    (hp : p + SRAM_SEC_SIZE ≤ 65536) (hb : march_buffer cfg + SRAM_SEC_SIZE ≤ 65536)
    (hd : p = march_buffer cfg ∨ p + SRAM_SEC_SIZE ≤ march_buffer cfg ∨
      march_buffer cfg + SRAM_SEC_SIZE ≤ p) :
    (∃ R, marchSection cfg p M = .ok R ∧
      R.log = M.log ++
        (if p ≠ march_buffer cfg then saveTrace (march_buffer cfg) p SRAM_SEC_SIZE M.mem
          else []) ++
        marchBTrace p SRAM_SEC_SIZE ++
        (if p ≠ march_buffer cfg then restoreTrace (march_buffer cfg) p SRAM_SEC_SIZE M.mem
          else [])) ∧
    (marchBTrace p SRAM_SEC_SIZE).map (marchOpBit p 0) = marchBReference SRAM_SEC_SIZE ∧
    (∀ b, 1 ≤ b → b < 8 →
      (marchBTrace p SRAM_SEC_SIZE).map (marchOpBit p b) = marchBHighBits SRAM_SEC_SIZE) ∧
    marchBHighBits SRAM_SEC_SIZE ≠ marchBReference SRAM_SEC_SIZE :=
  ⟨marchSection_trace cfg p M hf hp hb hd, marchBTrace_bit0 p SRAM_SEC_SIZE,
    fun b h1 h8 => marchBTrace_high_bits p SRAM_SEC_SIZE b h1 h8, marchBHighBits_ne⟩

/-- Section 2 of the 64-byte RAM, on fault-free memory holding a ramp. -/
theorem marchB_sequence_witness :
    (∃ R, marchSection ram64 0x4020 rampMachine = .ok R ∧
      R.log = rampMachine.log ++
        (if 0x4020 ≠ march_buffer ram64 then
          saveTrace (march_buffer ram64) 0x4020 SRAM_SEC_SIZE rampMachine.mem else []) ++
        marchBTrace 0x4020 SRAM_SEC_SIZE ++
        (if 0x4020 ≠ march_buffer ram64 then
          restoreTrace (march_buffer ram64) 0x4020 SRAM_SEC_SIZE rampMachine.mem else [])) ∧
    (marchBTrace 0x4020 SRAM_SEC_SIZE).map (marchOpBit 0x4020 0) =
      marchBReference SRAM_SEC_SIZE ∧
    (∀ b, 1 ≤ b → b < 8 →
      (marchBTrace 0x4020 SRAM_SEC_SIZE).map (marchOpBit 0x4020 b) =
        marchBHighBits SRAM_SEC_SIZE) ∧
    marchBHighBits SRAM_SEC_SIZE ≠ marchBReference SRAM_SEC_SIZE :=
  marchB_sequence ram64 0x4020 rampMachine rfl (by decide) (by decide)
    (Or.inr (Or.inr (by decide)))

/-! ## C9: the section tests of a passing call -/

theorem plannedTests_eq (startAddress length : Nat) (hlen : SRAM_SEC_SIZE ≤ length)
    (hfit : startAddress + length ≤ 65536) :
    plannedTests startAddress length =
      (List.range (length / SRAM_SEC_SIZE)).map
          (fun k => (startAddress + SRAM_SEC_SIZE * k, SRAM_SEC_SIZE))
        ++ (if length % SRAM_SEC_SIZE ≠ 0 then
          [(startAddress + SRAM_SEC_SIZE * (length / SRAM_SEC_SIZE - 1),
            length % SRAM_SEC_SIZE)] else []) := by
  have hmap : (List.range' 0 (length / SRAM_SEC_SIZE)).map
        (fun k => (ptr startAddress ((SRAM_SEC_SIZE * k) % 65536), SRAM_SEC_SIZE)) =
      (List.range (length / SRAM_SEC_SIZE)).map
        (fun k => (startAddress + SRAM_SEC_SIZE * k, SRAM_SEC_SIZE)) := by
    rw [List.range_eq_range']
    apply List.map_congr_left
    intro k hk
    have hk2 : k < length / SRAM_SEC_SIZE := by
      have := (List.mem_range'_1.mp hk).2
      omega
    simp only [SRAM_SEC_SIZE, ptr, Prod.mk.injEq, and_true] at hk2 hlen ⊢
    omega
  have hrem : (length % SRAM_SEC_SIZE) % 256 = length % SRAM_SEC_SIZE := by
    simp only [SRAM_SEC_SIZE]
    omega
  have hbase : ptr startAddress
      ((SRAM_SEC_SIZE * ((length / SRAM_SEC_SIZE + 65535) % 65536)) % 65536) =
      startAddress + SRAM_SEC_SIZE * (length / SRAM_SEC_SIZE - 1) := by
    simp only [SRAM_SEC_SIZE, ptr] at hlen ⊢
    omega
  unfold plannedTests
  rw [hmap, hrem, hbase]

/-- C9 (partition arithmetic), amended: on fault-free memory, for every accepted
`(startAddress, length)` with `length ≥ SRAM_SEC_SIZE` whose region lies in the 16-bit data
space and none of whose full sections overlaps `checkerbrd_buffer` without being equal to
it, `DIAG_SRAM_CheckerBoard` returns `SRAM_OK` and has run exactly `length / SRAM_SEC_SIZE`
full-section tests at `startAddress + SRAM_SEC_SIZE * k`, `k = 0, 1, ...` in ascending
order, followed, iff `length % SRAM_SEC_SIZE ≠ 0`, by one test of `length % SRAM_SEC_SIZE`
bytes at the base of the last full section. -/
theorem checkerBoard_partition (cfg : Config) (startAddress length : Nat) (M : Machine)
    (hf : M.fault = [])
    (hacc : ¬ (startAddress < cfg.INTERNAL_SRAM_START % 65536 ∨
      startAddress > (cfg.INTERNAL_SRAM_START + cfg.INTERNAL_SRAM_SIZE) % 65536 ∨
      length = 0 ∨ length > cfg.INTERNAL_SRAM_SIZE))
    (hlen : SRAM_SEC_SIZE ≤ length) (hfit : startAddress + length ≤ 65536)
    (hb : checkerbrd_buffer cfg + SRAM_SEC_SIZE ≤ 65536)
    (hsec : ∀ k, k < length / SRAM_SEC_SIZE →
      startAddress + SRAM_SEC_SIZE * k = checkerbrd_buffer cfg ∨
      startAddress + SRAM_SEC_SIZE * k + SRAM_SEC_SIZE ≤ checkerbrd_buffer cfg ∨
      checkerbrd_buffer cfg + SRAM_SEC_SIZE ≤ startAddress + SRAM_SEC_SIZE * k) :
    (DIAG_SRAM_CheckerBoard cfg startAddress length M).1 = SRAM_OK ∧
    (DIAG_SRAM_CheckerBoard cfg startAddress length M).2.tests =
      M.tests ++ (List.range (length / SRAM_SEC_SIZE)).map
          (fun k => (startAddress + SRAM_SEC_SIZE * k, SRAM_SEC_SIZE))
        ++ (if length % SRAM_SEC_SIZE ≠ 0 then
          [(startAddress + SRAM_SEC_SIZE * (length / SRAM_SEC_SIZE - 1),
            length % SRAM_SEC_SIZE)] else []) := by
  have h16 : SRAM_SEC_SIZE = 16 := rfl
  have hpl := plannedTests_eq startAddress length hlen hfit
  have hall : ∀ t, t ∈ plannedTests startAddress length →
      t.1 + patternWidth t.2 ≤ 65536 ∧ checkerbrd_buffer cfg + t.2 ≤ 65536 ∧
        (t.1 = checkerbrd_buffer cfg ∨ t.1 + patternWidth t.2 ≤ checkerbrd_buffer cfg ∨
          checkerbrd_buffer cfg + t.2 ≤ t.1) := by
    intro t ht
    rw [hpl, List.mem_append] at ht
    rcases ht with h | h
    · obtain ⟨k, hk, rfl⟩ := List.mem_map.mp h
      have hk2 := List.mem_range.mp hk
      have hs := hsec k hk2
      simp only [patternWidth, h16] at hk2 hs hlen hb ⊢
      omega
    · split at h
      · rename_i hrem
        rw [List.mem_singleton] at h
        subst h
        have hs := hsec (length / SRAM_SEC_SIZE - 1) (by rw [h16] at hlen ⊢; omega)
        simp only [patternWidth, h16] at hs hlen hb hrem ⊢
        omega
      · cases h
  obtain ⟨R, hR, _⟩ := runTests_ok cfg (plannedTests startAddress length)
    { M with SREG := M.SREG &&& (255 - cfg.CPU_I_bm % 256) } hf hall
  have hok : (DIAG_SRAM_CheckerBoard cfg startAddress length M).1 = SRAM_OK := by
    rw [DIAG_SRAM_CheckerBoard_eq_runTests cfg startAddress length M hacc, hR]
    rfl
  refine ⟨hok, ?_⟩
  rw [checkerBoard_tests_of_ok cfg startAddress length M hok, List.append_assoc,
    List.append_assoc, ← hpl]
  rfl

/-- The 50-byte call from the RAM base of the 64-byte RAM, on fault-free memory holding a
ramp: three full sections, of which the second is `checkerbrd_buffer` itself, and a
remainder of 2 bytes tested at the base of the third full section. -/
theorem checkerBoard_partition_witness :
    (DIAG_SRAM_CheckerBoard ram64 0x4000 50 rampMachine).1 = SRAM_OK ∧
    (DIAG_SRAM_CheckerBoard ram64 0x4000 50 rampMachine).2.tests =
      rampMachine.tests ++ (List.range (50 / SRAM_SEC_SIZE)).map
          (fun k => (0x4000 + SRAM_SEC_SIZE * k, SRAM_SEC_SIZE))
        ++ (if 50 % SRAM_SEC_SIZE ≠ 0 then
          [(0x4000 + SRAM_SEC_SIZE * (50 / SRAM_SEC_SIZE - 1), 50 % SRAM_SEC_SIZE)] else []) :=
  checkerBoard_partition ram64 0x4000 50 rampMachine rfl (by decide) (by decide) (by decide)
    (by decide) (by intro k hk; have h3 : k < 3 := hk; interval_cases k <;> decide)

end DiagSram
